import Mathlib

/-!
Verification development for the PDF outline extractor
(`backend/round_1A.py`).  The Python source is shallowly embedded:

* Python `float` values (font sizes, bounding-box coordinates, scores,
  ratios) are modelled as exact rationals `Q` (a numerator/denominator
  pair with a positive denominator), so arithmetic is exact where the
  source uses IEEE doubles on small decimal constants.
* Python `str` values are modelled as `List Char`; the ASCII character
  classification of `Char.isAlpha`, `Char.isDigit`, … stands in for
  Python's Unicode classification, and Unicode NFKC normalization is
  modelled as the identity (the whitespace collapsing and trimming of
  `normalize_text` is modelled exactly).
* The regular expressions of the source are translated into direct
  scanners; every pattern used by the source has disjoint character
  classes at quantifier boundaries, so maximal-munch scanning agrees
  with backtracking semantics.
* Python `list.sort`/`sorted` (a stable sort) is modelled by a stable
  insertion sort; Python `dict` iteration order (insertion order) is
  modelled by association lists in first-occurrence order; Python `set`
  of floats is modelled by a duplicate-free list with numeric equality.
* The sklearn clustering call (`AgglomerativeClustering.fit_predict`)
  is an external library whose output is an opaque label vector; it is
  modelled as a function parameter `clusterFn : List Cand → List Nat`.
  Everything the source does with the labels is embedded exactly.
* Exceptions: the only exception reachable after parsing in the pure
  part of the source is the `StopIteration` of the sort-key lookup
  (`next(...)`), which the surrounding `except` turns into the empty
  result; this is modelled by an `Option` in `sortedOutlineOf`.
-/

/-- Exact rational numbers with a strictly positive denominator,
standing in for Python floats. -/
structure Q where
  n : Int
  d : Int
  dpos : 0 < d
  deriving DecidableEq

def qOfInt (v : Int) : Q := ⟨v, 1, Int.one_pos⟩

def qMk (a b : Int) (h : 0 < b) : Q := ⟨a, b, h⟩

def qZero : Q := qOfInt 0

def qAdd (a b : Q) : Q := ⟨a.n * b.d + b.n * a.d, a.d * b.d, mul_pos a.dpos b.dpos⟩

def qSub (a b : Q) : Q := ⟨a.n * b.d - b.n * a.d, a.d * b.d, mul_pos a.dpos b.dpos⟩

def qMul (a b : Q) : Q := ⟨a.n * b.n, a.d * b.d, mul_pos a.dpos b.dpos⟩

def qDiv (a b : Q) : Q :=
  if h : 0 < b.n then ⟨a.n * b.d, a.d * b.n, mul_pos a.dpos h⟩
  else if h2 : b.n < 0 then ⟨-(a.n * b.d), a.d * (-b.n), mul_pos a.dpos (by omega)⟩
  else qZero

def qLe (a b : Q) : Bool := decide (a.n * b.d ≤ b.n * a.d)

def qLt (a b : Q) : Bool := decide (a.n * b.d < b.n * a.d)

def qEqv (a b : Q) : Bool := decide (a.n * b.d = b.n * a.d)

def qAbs (a : Q) : Q := ⟨|a.n|, a.d, a.dpos⟩

/-- Floor of a `Q` (exact, since the denominator is positive). -/
def qFloor (a : Q) : Int := Int.fdiv a.n a.d

/-- Python's `round` on a rational value: round half to even. -/
def pyRound (a : Q) : Int :=
  let f := qFloor a
  let r2 := 2 * (a.n - f * a.d)
  if r2 < a.d then f
  else if a.d < r2 then f + 1
  else if f % 2 = 0 then f else f + 1

/-- Shorthand for string literals as character lists. -/
def sl (s : String) : List Char := s.toList

/-- Whitespace characters as understood by the model of Python's
`\s`/`str.split`/`str.strip` (the ASCII whitespace set). -/
def pyIsSpace (c : Char) : Bool :=
  c = ' ' || c = '\t' || c = '\n' || c = '\r' || c = Char.ofNat 11 || c = Char.ofNat 12

def trimLeftWs (t : List Char) : List Char := t.dropWhile pyIsSpace

def trimWs (t : List Char) : List Char :=
  ((t.dropWhile pyIsSpace).reverse.dropWhile pyIsSpace).reverse

/-- Collapse every run of whitespace to a single space
(the `re.sub(r"\s+", " ", ...)` of the source); the Boolean records
whether the previous character was part of a whitespace run. -/
def collapseGo : Bool → List Char → List Char
  | _, [] => []
  | prevSp, c :: cs =>
    if pyIsSpace c then
      if prevSp then collapseGo true cs else ' ' :: collapseGo true cs
    else c :: collapseGo false cs

/-- Model of `normalize_text` of the source: NFKC (modelled as the identity),
whitespace-run collapsing, and trimming. -/
def normalize_text (t : List Char) : List Char := trimWs (collapseGo false t)

def lowerStr (t : List Char) : List Char := t.map Char.toLower

/-- Model of `capitalize_first_letter` of the source: uppercase the first
alphabetic character, leave everything else alone. -/
def capitalize_first_letter : List Char → List Char
  | [] => []
  | c :: cs => if c.isAlpha then c.toUpper :: cs else c :: capitalize_first_letter cs

/-- Python's `str.split()` (split on whitespace runs, dropping empties);
the accumulator holds the current word reversed. -/
def splitWsGo : List Char → List Char → List (List Char)
  | [], acc => if acc.isEmpty then [] else [acc.reverse]
  | c :: cs, acc =>
    if pyIsSpace c then
      if acc.isEmpty then splitWsGo cs [] else acc.reverse :: splitWsGo cs []
    else splitWsGo cs (c :: acc)

def splitWs (t : List Char) : List (List Char) := splitWsGo t []

def dropTrailingColons (t : List Char) : List Char :=
  (t.reverse.dropWhile (· = ':')).reverse

/-- Python's `str.isupper`: at least one cased character, and no cased
character is lowercase (ASCII model). -/
def isUpperStr (t : List Char) : Bool :=
  t.any Char.isAlpha && t.all (fun c => !c.isAlpha || c.isUpper)

def startsWithL : List Char → List Char → Bool
  | [], _ => true
  | _ :: _, [] => false
  | c :: cs, d :: ds => c = d && startsWithL cs ds

def containsSub (pat : List Char) : List Char → Bool
  | [] => startsWithL pat []
  | c :: cs => startsWithL pat (c :: cs) || containsSub pat cs

/-- Consume a literal; return the rest of the input on success. -/
def dropLit : List Char → List Char → Option (List Char)
  | [], s => some s
  | _ :: _, [] => none
  | c :: cs, d :: ds => if c = d then dropLit cs ds else none

/-- Maximal run of characters satisfying `p`: its length and the rest. -/
def takeRun (p : Char → Bool) : List Char → Nat × List Char
  | [] => (0, [])
  | c :: cs =>
    if p c then
      let r := takeRun p cs
      (r.1 + 1, r.2)
    else (0, c :: cs)

def dropOptChar (c : Char) : List Char → List Char
  | [] => []
  | d :: ds => if d = c then ds else d :: ds

/-- Full match of `\d+`. -/
def matchAllDigits (t : List Char) : Bool := !t.isEmpty && t.all Char.isDigit

/-- Full match of `\d{1,2}\s+[A-Za-z]{3,9}\s+\d{4}`. -/
def matchDateDMY (t : List Char) : Bool :=
  let r1 := takeRun Char.isDigit t
  if r1.1 < 1 || 2 < r1.1 then false else
  let r2 := takeRun pyIsSpace r1.2
  if r2.1 < 1 then false else
  let r3 := takeRun Char.isAlpha r2.2
  if r3.1 < 3 || 9 < r3.1 then false else
  let r4 := takeRun pyIsSpace r3.2
  if r4.1 < 1 then false else
  let r5 := takeRun Char.isDigit r4.2
  r5.1 = 4 && r5.2.isEmpty

/-- Full match of the slash-or-dash date pattern: one or two digits, a
slash or dash, one or two digits, a slash or dash, two to four digits. -/
def matchDateSlash (t : List Char) : Bool :=
  let r1 := takeRun Char.isDigit t
  if r1.1 < 1 || 2 < r1.1 then false else
  match r1.2 with
  | [] => false
  | s1 :: rest1 =>
    if !(s1 = '/' || s1 = '-') then false else
    let r2 := takeRun Char.isDigit rest1
    if r2.1 < 1 || 2 < r2.1 then false else
    match r2.2 with
    | [] => false
    | s2 :: rest2 =>
      if !(s2 = '/' || s2 = '-') then false else
      let r3 := takeRun Char.isDigit rest2
      (2 ≤ r3.1 && r3.1 ≤ 4) && r3.2.isEmpty

/-- Full match of `[A-Za-z]{3,9}\s+\d{4}`. -/
def matchDateMY (t : List Char) : Bool :=
  let r1 := takeRun Char.isAlpha t
  if r1.1 < 3 || 9 < r1.1 then false else
  let r2 := takeRun pyIsSpace r1.2
  if r2.1 < 1 then false else
  let r3 := takeRun Char.isDigit r2.2
  r3.1 = 4 && r3.2.isEmpty

/-- Full match of `\d{4}`. -/
def matchYear (t : List Char) : Bool :=
  let r := takeRun Char.isDigit t
  r.1 = 4 && r.2.isEmpty

/-- Search for `www\.|\.com|\.org|\.net|https?://` in already-lowercased
text. -/
def urlHit (lower : List Char) : Bool :=
  containsSub (sl "www.") lower || containsSub (sl ".com") lower ||
  containsSub (sl ".org") lower || containsSub (sl ".net") lower ||
  containsSub (sl "http://") lower || containsSub (sl "https://") lower

/-- Full match of `\([^)]*\)`. -/
def matchParenOnly : List Char → Bool
  | [] => false
  | c :: rest =>
    c = '(' && !rest.isEmpty && rest.getLast? = some ')' &&
      rest.dropLast.all (· ≠ ')')

def sepChar (c : Char) : Bool :=
  c = '-' || c = '_' || c = '=' || c = '*' || c = '#' || c = '~' ||
  c = Char.ofNat 96 || c = '^'

/-- Full match of a run of three or more separator characters. -/
def matchSeparators (t : List Char) : Bool :=
  3 ≤ t.length && t.all sepChar

/-- Prefix match of `page\s+\d+` (and the analogous patterns) at the
head of the input. -/
def wordNumAt (word : List Char) (t : List Char) : Bool :=
  match dropLit word t with
  | none => false
  | some r =>
    let r2 := takeRun pyIsSpace r
    if r2.1 < 1 then false else 1 ≤ (takeRun Char.isDigit r2.2).1

/-- Prefix match of `\d+\s*/\s*\d+` at the head of the input. -/
def numSlashNumAt (t : List Char) : Bool :=
  let r1 := takeRun Char.isDigit t
  if r1.1 < 1 then false else
  let r2 := takeRun pyIsSpace r1.2
  match r2.2 with
  | [] => false
  | c :: rest =>
    if c ≠ '/' then false else
    let r3 := takeRun pyIsSpace rest
    1 ≤ (takeRun Char.isDigit r3.2).1

/-- Model of `re.search`: try a prefix matcher at every suffix. -/
def searchSuffixes (f : List Char → Bool) : List Char → Bool
  | [] => f []
  | c :: cs => f (c :: cs) || searchSuffixes f cs

/-- Search for any of `page\s+\d+`, `figure\s+\d+`, `table\s+\d+`,
`\d+\s*/\s*\d+` in already-lowercased text. -/
def pageHit (lower : List Char) : Bool :=
  searchSuffixes (wordNumAt (sl "page")) lower ||
  searchSuffixes (wordNumAt (sl "figure")) lower ||
  searchSuffixes (wordNumAt (sl "table")) lower ||
  searchSuffixes numSlashNumAt lower

def countAlnum (t : List Char) : Nat := (t.filter Char.isAlphanum).length

/-- Model of `is_noise_content` of the source, clause for clause in source
order (the early `return True`s become a disjunction). -/
def is_noise_content (t0 : List Char) : Bool :=
  let t := normalize_text t0
  let lower := lowerStr t
  t.isEmpty || t.length < 2 ||
  matchAllDigits t ||
  matchDateDMY t || matchDateSlash t || matchDateMY t || matchYear t ||
  urlHit lower ||
  matchParenOnly t ||
  matchSeparators t ||
  pageHit lower ||
  decide (15 < (splitWs t).length) ||
  qLt (qDiv (qOfInt (countAlnum t)) (qOfInt t.length)) (qMk 3 10 (by omega))

def signature_words : List (List Char) :=
  [sl "date", sl "signature", sl "sign", sl "name", sl "witness", sl "seal",
   sl "stamp", sl "approved", sl "verified", sl "checked", sl "authorized",
   sl "place"]

def is_signature_field (t0 : List Char) : Bool :=
  let t := trimWs (lowerStr (normalize_text t0))
  let clean := trimWs (dropTrailingColons t)
  signature_words.any (· = clean)

def form_labels : List (List Char) :=
  [sl "address", sl "phone", sl "email", sl "rsvp", sl "contact",
   sl "location", sl "venue", sl "time", sl "date", sl "when", sl "where",
   sl "who", sl "what", sl "details", sl "info", sl "information",
   sl "notice", sl "announcement", sl "warning", sl "attention", sl "note",
   sl "memo", sl "subject", sl "from", sl "to", sl "cc", sl "bcc"]

def is_form_label (t0 : List Char) : Bool :=
  let t := trimWs (lowerStr (normalize_text t0))
  let clean := trimWs (dropTrailingColons t)
  form_labels.any (· = clean)

def articleWords : List (List Char) :=
  [sl "the", sl "a", sl "an", sl "this", sl "that"]

def endsInChar (t : List Char) (cs : List Char) : Bool :=
  match t.getLast? with
  | none => false
  | some c => cs.any (· = c)

/-- Model of `is_valid_heading` of the source. -/
def is_valid_heading (t0 : List Char) : Bool :=
  let t := normalize_text t0
  if !t.any Char.isAlpha then false
  else if endsInChar t ['.', ';', ',', '!', '?'] then false
  else
    let wc := (splitWs t).length
    if wc < 1 || 12 < wc then false
    else
      let firstWord := match splitWs t with
        | [] => []
        | w :: _ => lowerStr w
      if articleWords.any (· = firstWord) then false
      else if is_signature_field t then false
      else true

/-- Model of `is_valid_title` of the source. -/
def is_valid_title (t0 : List Char) : Bool :=
  let t := normalize_text t0
  if !t.any Char.isAlpha then false
  else if is_form_label t || is_signature_field t || is_noise_content t then false
  else if endsInChar t ['.', ';', ',', '?'] && !endsInChar t ['!'] then false
  else
    let wc := (splitWs t).length
    if wc < 1 || 10 < wc then false
    else true

/-- Match helper: literal word, optional dot, optional spaces, literal
`no`, optional dot, end (covers the `sr no` family of patterns). -/
def matchWordNo (word : List Char) (optDotAfterWord : Bool) (t : List Char) : Bool :=
  match dropLit word t with
  | none => false
  | some r =>
    let r1 := if optDotAfterWord then dropOptChar '.' r else r
    let r2 := (takeRun pyIsSpace r1).2
    match dropLit (sl "no") r2 with
    | none => false
    | some r3 => (dropOptChar '.' r3).isEmpty

/-- Full match of `\d+\.?`. -/
def matchIntDot (t : List Char) : Bool :=
  let r := takeRun Char.isDigit t
  1 ≤ r.1 && (dropOptChar '.' r.2).isEmpty

/-- Full match of `\d+\)`. -/
def matchIntParen (t : List Char) : Bool :=
  let r := takeRun Char.isDigit t
  1 ≤ r.1 && (dropOptChar ')' r.2).isEmpty && !r.2.isEmpty

def isRomanLowChar (c : Char) : Bool :=
  c = 'i' || c = 'v' || c = 'x' || c = 'l' || c = 'c' || c = 'd' || c = 'm'

def isRomanUpChar (c : Char) : Bool :=
  c = 'I' || c = 'V' || c = 'X' || c = 'L' || c = 'C' || c = 'D' || c = 'M'

/-- Full match of a lowercase-roman-letter run with optional dot. -/
def matchRomanLow (t : List Char) : Bool :=
  let r := takeRun isRomanLowChar t
  1 ≤ r.1 && (dropOptChar '.' r.2).isEmpty

/-- Full match of an uppercase-roman-letter run with optional dot. -/
def matchRomanUp (t : List Char) : Bool :=
  let r := takeRun isRomanUpChar t
  1 ≤ r.1 && (dropOptChar '.' r.2).isEmpty

/-- Model of `is_serial_number` of the source: the disjunction of its eleven
serial patterns applied to the lowercased normalized text. -/
def is_serial_number (t0 : List Char) : Bool :=
  let t := lowerStr (normalize_text t0)
  matchWordNo (sl "sr") true t ||
  matchWordNo (sl "s") true t ||
  matchWordNo (sl "sl") true t ||
  matchWordNo (sl "serial") false t ||
  (dropOptChar '.' ((dropLit (sl "no") t).getD ['x'])).isEmpty ||
  t = ['#'] ||
  matchWordNo (sl "item") false t ||
  matchIntDot t ||
  matchIntParen t ||
  matchRomanLow t ||
  matchRomanUp t

/-- Prefix match of `\d+[.)]\s` (the numbered-list heading marker). -/
def numberedMarkerAt (t : List Char) : Bool :=
  let r := takeRun Char.isDigit t
  if r.1 < 1 then false else
  match r.2 with
  | [] => false
  | c :: rest =>
    (c = '.' || c = ')') &&
      (match rest with
       | [] => false
       | d :: _ => pyIsSpace d)

/-- Bounding box `(x0, y0, x1, y1)` in page units. -/
structure BBox where
  x0 : Q
  y0 : Q
  x1 : Q
  y1 : Q
  deriving DecidableEq

/-- A text span as delivered by the PDF parser: its text, an optional
font size (`"size" in span`), and its bold flag (`flags & 16`). -/
structure Span where
  text : List Char
  size : Option Q
  bold : Bool
  deriving DecidableEq

/-- A raw line as delivered by the PDF parser (the external collaborator):
its spans and its bounding box. -/
structure RawLine where
  spans : List Span
  bbox : BBox
  deriving DecidableEq

/-- The per-line record built by `extract_pdf_outline`. -/
structure LineData where
  text : List Char
  size : Q
  is_bold : Bool
  bbox : BBox
  page : Nat
  spans : List Span
  deriving DecidableEq

/-- A heading candidate: a line plus the fields the scorer attaches. -/
structure Cand where
  line : LineData
  score : Int
  vertical_gap : Q
  sizeRat : Q
  deriving DecidableEq

/-- One outline entry of the output artifact. -/
structure OutlineEntry where
  level : String
  text : List Char
  page : Nat
  deriving DecidableEq

/-- The output artifact (`{"title": ..., "outline": [...]}`). -/
structure OutlineResult where
  title : List Char
  outline : List OutlineEntry
  deriving DecidableEq

/-- Stable insertion (places `x` before the first `y` with `r x y`);
with `r x y` read as "x may sit before y", `sortBy` below is exactly
Python's stable sort. -/
def insertBy (r : α → α → Bool) (x : α) : List α → List α
  | [] => [x]
  | y :: ys => if r x y then x :: y :: ys else y :: insertBy r x ys

def sortBy (r : α → α → Bool) : List α → List α
  | [] => []
  | x :: xs => insertBy r x (sortBy r xs)

/-- Ordered grouping in first-occurrence key order (Python `dict`
insertion-order semantics). -/
def addToGroup [DecidableEq κ] (k : κ) (v : α) : List (κ × List α) → List (κ × List α)
  | [] => [(k, [v])]
  | (k0, vs) :: rest =>
    if k = k0 then (k0, vs ++ [v]) :: rest else (k0, vs) :: addToGroup k v rest

def groupPairs [DecidableEq κ] (key : α → κ) (l : List α) : List (κ × List α) :=
  l.foldl (fun acc a => addToGroup (key a) a acc) []

/-- Membership-preserving insertion into the model of a Python float
set (numeric equality). -/
def insertY (y : Q) (s : List Q) : List Q :=
  if s.any (qEqv y) then s else s ++ [y]

def parseDigits (t : List Char) : Nat :=
  t.foldl (fun acc c => acc * 10 + (c.toNat - '0'.toNat)) 0

/-- The numeric cell parse of `detect_table_rows`: text matching
`\d+\.?` after stripping, as an integer, with its Y-coordinate. -/
def numParse (l : LineData) : Option (Nat × Q) :=
  let t := trimWs l.text
  if matchIntDot t then some (parseDigits (dropTrailingDot t), l.bbox.y0) else none
where
  dropTrailingDot (t : List Char) : List Char := (dropOptChar '.' t.reverse).reverse

/-- First index of a consecutive-integer window `n, n+1, n+2`
(the source's scan with `break` after the first hit). -/
def findTripleIdxGo : List Nat → Nat → Option Nat
  | a :: b :: c :: rest, i =>
    if b = a + 1 ∧ c = a + 2 then some i else findTripleIdxGo (b :: c :: rest) (i + 1)
  | _, _ => none

/-- The Y-coordinates added by the consecutive-integer scan of one
X-bucket (`for j in range(i, min(i+3, len(y_coords)))`). -/
def tripleScanYs (ns : List Nat) (ys : List Q) : List Q :=
  match findTripleIdxGo ns 0 with
  | some i => (ys.drop i).take (min 3 (ys.length - i))
  | none => []

def sortByY (ls : List LineData) : List LineData :=
  sortBy (fun a b => qLe a.bbox.y0 b.bbox.y0) ls

/-- The whole bucket scan of `detect_table_rows` for one X-bucket. -/
def bucketScanYs (xlines : List LineData) : List Q :=
  if xlines.length < 3 then [] else
  let sorted := sortByY xlines
  let nums := sorted.filterMap numParse
  if 3 ≤ nums.length then tripleScanYs (nums.map Prod.fst) (nums.map Prod.snd)
  else []

def xBucketKey (l : LineData) : Int :=
  pyRound (qDiv l.bbox.x0 (qOfInt 10)) * 10

/-- Model of `detect_table_rows` of the source: serial-number anchors plus the
per-page, per-X-bucket consecutive-integer scan. -/
def detect_table_rows (allLines : List LineData) : List Q :=
  let s1 := allLines.foldl
    (fun acc line => if is_serial_number line.text then insertY line.bbox.y0 acc else acc) []
  let pages := groupPairs (fun l => l.page) allLines
  pages.foldl
    (fun acc pg =>
      let xg := groupPairs xBucketKey pg.2
      xg.foldl (fun acc2 xb => (bucketScanYs xb.2).foldl (fun a y => insertY y a) acc2) acc)
    s1

/-- Model of `is_in_table_row` of the source. -/
def is_in_table_row (bbox : BBox) (tableYs : List Q) (tol : Q) : Bool :=
  tableYs.any (fun ty => qLe (qAbs (qSub bbox.y0 ty)) tol)

/-- Model of `has_consistent_formatting` of the source. -/
def has_consistent_formatting (spans : List Span) (tol : Q) : Bool :=
  if spans.length ≤ 1 then true
  else
    let sizes := spans.filterMap Span.size
    let sizeOk :=
      if 1 < sizes.length then
        match sizes with
        | [] => true
        | s0 :: rest =>
          let mx := rest.foldl (fun a b => if qLe a b then b else a) s0
          let mn := rest.foldl (fun a b => if qLe b a then b else a) s0
          !qLt tol (qSub mx mn)
      else true
    sizeOk && !(spans.any Span.bold && spans.any (fun s => !s.bold))

def filter_inconsistent_formatting (cands : List Cand) : List Cand :=
  cands.filter (fun c => has_consistent_formatting c.line.spans (qMk 3 2 (by omega)))

/-- The `(page, Y, X)` sort of `filter_horizontal_table_headers`. -/
def candPageYXLe (a b : Cand) : Bool :=
  if a.line.page ≠ b.line.page then decide (a.line.page < b.line.page)
  else if !qEqv a.line.bbox.y0 b.line.bbox.y0 then qLt a.line.bbox.y0 b.line.bbox.y0
  else qLe a.line.bbox.x0 b.line.bbox.x0

def sortCandsPageYX (cands : List Cand) : List Cand := sortBy candPageYXLe cands

/-- The inner scan of `filter_horizontal_table_headers`: indices of the
horizontal neighbors of the candidate at the current position (skipped
indices are passed over before any other test, as in the source). -/
def hNeighborsGo (cs : List Cand) (skip : List Nat) (curPage : Nat) (curY curXEnd : Q)
    (ytol gap : Q) (j : Nat) (fuel : Nat) : List Nat :=
  match fuel with
  | 0 => []
  | fu + 1 =>
    match cs.get? j with
    | none => []
    | some other =>
      if j ∈ skip then hNeighborsGo cs skip curPage curY curXEnd ytol gap (j + 1) fu
      else if other.line.page ≠ curPage then []
      else if qLe (qAbs (qSub other.line.bbox.y0 curY)) ytol then
        if qLe gap (qSub other.line.bbox.x0 curXEnd) then
          j :: hNeighborsGo cs skip curPage curY curXEnd ytol gap (j + 1) fu
        else hNeighborsGo cs skip curPage curY curXEnd ytol gap (j + 1) fu
      else if qLt (qAdd curY ytol) other.line.bbox.y0 then []
      else hNeighborsGo cs skip curPage curY curXEnd ytol gap (j + 1) fu

def hNeighborsAt (cs : List Cand) (skip : List Nat) (i : Nat) (ytol gap : Q) : List Nat :=
  match cs.get? i with
  | none => []
  | some cur =>
    hNeighborsGo cs skip cur.line.page cur.line.bbox.y0 cur.line.bbox.x1 ytol gap
      (i + 1) cs.length

/-- The outer loop of `filter_horizontal_table_headers`, returning the
positions (into the sorted list) of the kept candidates. -/
def fhthLoopIdx (cs : List Cand) (ytol gap : Q) (i : Nat) (skip : List Nat)
    (fuel : Nat) : List Nat :=
  match fuel with
  | 0 => []
  | fu + 1 =>
    match cs.get? i with
    | none => []
    | some _ =>
      if i ∈ skip then fhthLoopIdx cs ytol gap (i + 1) skip fu
      else
        let ns := hNeighborsAt cs skip i ytol gap
        if ns.isEmpty then i :: fhthLoopIdx cs ytol gap (i + 1) skip fu
        else fhthLoopIdx cs ytol gap (i + 1) (skip ++ ns) fu

/-- Model of `filter_horizontal_table_headers` of the source (default tolerances
`y_tolerance = 10.0`, `min_horizontal_gap = 50.0` are passed at the call
site). -/
def filter_horizontal_table_headers (cands : List Cand) (ytol gap : Q) : List Cand :=
  if cands.length < 2 then cands
  else
    let sorted := sortCandsPageYX cands
    (fhthLoopIdx sorted ytol gap 0 [] sorted.length).filterMap (fun i => sorted.get? i)

/-- Model of `is_paragraph_content` of the source. -/
def is_paragraph_content (t0 : List Char) : Bool :=
  let t := normalize_text t0
  if (splitWs t).length < 3 then false
  else if !t.any Char.isLower then false
  else if is_noise_content t || is_signature_field t then false
  else if endsInChar t ['.', '!', '?', ';'] then true
  else
    let words := (splitWs (lowerStr t))
    let indicators : List (List Char) :=
      [sl "the", sl "and", sl "or", sl "but", sl "in", sl "on", sl "at",
       sl "by", sl "for", sl "with", sl "this", sl "that", sl "these", sl "those"]
    if indicators.any (fun w => words.any (· = w)) then true
    else if 5 ≤ (splitWs t).length && t.any Char.isLower && t.any Char.isUpper then true
    else false

/-- The inner scan of `has_paragraph_below`. -/
def hpbGo (heading : LineData) (candTexts : List (List Char)) :
    List LineData → Nat → Nat → Bool
  | [], _, _ => false
  | nl :: rs, checked, maxd =>
    if maxd ≤ checked then false
    else if heading.page + 2 < nl.page then false
    else if candTexts.any (· = nl.text) then hpbGo heading candTexts rs (checked + 1) maxd
    else if is_paragraph_content nl.text then true
    else hpbGo heading candTexts rs (checked + 1) maxd

/-- Model of `has_paragraph_below` of the source (`max_distance = 15` at the call
site). -/
def has_paragraph_below (headingIdx : Nat) (allLines : List LineData)
    (cands : List Cand) (maxd : Nat) : Bool :=
  match allLines.get? headingIdx with
  | none => false
  | some heading =>
    hpbGo heading (cands.map (fun c => c.line.text)) (allLines.drop (headingIdx + 1)) 0 maxd

/-- The `text_to_index` map of `filter_headings_with_content`; later
assignments overwrite, so the map holds the LAST index of each text. -/
def lastIndexOfText (allLines : List LineData) (t : List Char) : Option Nat :=
  ((allLines.enum).filter (fun p => p.2.text = t)).getLast? |>.map Prod.fst

/-- Model of `filter_headings_with_content` of the source. -/
def filter_headings_with_content (cands : List Cand) (allLines : List LineData) : List Cand :=
  cands.filter (fun c =>
    match lastIndexOfText allLines c.line.text with
    | some idx => has_paragraph_below idx allLines cands 15
    | none => true)

/-- Lexicographic strict order on character lists (Python `str` `<`). -/
def strLtB : List Char → List Char → Bool
  | [], [] => false
  | [], _ :: _ => true
  | _ :: _, [] => false
  | a :: as0, b :: bs =>
    if a < b then true else if b < a then false else strLtB as0 bs

/-- The scored-candidate tuples of `extract_title`:
`(score, normalized text, font size)`. -/
abbrev TitleTuple := Int × List Char × Q

/-- Python tuple comparison `a <= b` on `(int, str, float)` triples. -/
def tupleLeB (a b : TitleTuple) : Bool :=
  if a.1 < b.1 then true
  else if b.1 < a.1 then false
  else if strLtB a.2.1 b.2.1 then true
  else if strLtB b.2.1 a.2.1 then false
  else qLe a.2.2 b.2.2

/-- Python `scored_candidates.sort(reverse=True)`: stable descending
sort by tuple comparison. -/
def sortTupleDesc (l : List TitleTuple) : List TitleTuple :=
  sortBy (fun a b => tupleLeB b a) l

def maxQL : List Q → Q
  | [] => qZero
  | a :: rest => rest.foldl (fun x y => if qLt x y then y else x) a

/-- The 60-percent page-height bound of `extract_title`. -/
def sixtyPct (pageHeight : Q) : Q := qMul pageHeight (qMk 3 5 (by omega))

def titleTop (els : List LineData) (pageHeight : Q) : List LineData :=
  els.filter (fun e => qLe e.bbox.y0 (sixtyPct pageHeight))

def titleCandsOf (els : List LineData) (pageHeight : Q) : List LineData :=
  (titleTop els pageHeight).filter (fun e =>
    let t := normalize_text e.text
    is_valid_title t && !(t.head? = some '(' && t.getLast? = some ')'))

def titleLargestOf (els : List LineData) (pageHeight : Q) : List LineData :=
  let tc := titleCandsOf els pageHeight
  let largest := maxQL (tc.map LineData.size)
  tc.filter (fun e => qLe (qSub largest (qOfInt 1)) e.size)

/-- Count of words whose first character is uppercase. -/
def capCount (ws : List (List Char)) : Nat :=
  (ws.filter (fun w =>
    match w with
    | [] => false
    | c :: _ => c.isUpper)).length

/-- The per-candidate title score of `extract_title`. -/
def titleScore (med sixty : Q) (e : LineData) : Int :=
  let t := normalize_text e.text
  let sRat := qDiv e.size med
  let s1 : Int :=
    if qLt (qOfInt 2) sRat then 10
    else if qLt (qMk 3 2 (by omega)) sRat then 8
    else if qLt (qMk 6 5 (by omega)) sRat then 6 else 0
  let posRat := qDiv e.bbox.y0 sixty
  let s2 : Int :=
    if qLt posRat (qMk 3 10 (by omega)) then 4
    else if qLt posRat (qMk 3 5 (by omega)) then 2 else 0
  let s3 : Int := if e.is_bold then 3 else 0
  let wc := (splitWs t).length
  let s4 : Int :=
    if 1 ≤ wc ∧ wc ≤ 3 then 4
    else if 4 ≤ wc ∧ wc ≤ 6 then 2
    else if 10 < wc then -2 else 0
  let s5 : Int := if isUpperStr t then 2 else 0
  let xc := qAdd e.bbox.x0 (qDiv (qSub e.bbox.x1 e.bbox.x0) (qOfInt 2))
  let s6 : Int := if qLt (qAbs (qSub xc (qOfInt 306))) (qOfInt 100) then 2 else 0
  s1 + s2 + s3 + s4 + s5 + s6

def titleScoredOf (els : List LineData) (med pageHeight : Q) : List TitleTuple :=
  (titleLargestOf els pageHeight).map
    (fun e => (titleScore med (sixtyPct pageHeight) e, normalize_text e.text, e.size))

/-- Model of `extract_title` of the source. -/
def extract_title (els : List LineData) (med pageHeight : Q) : List Char :=
  if els.isEmpty then []
  else if (titleTop els pageHeight).isEmpty then []
  else if (titleCandsOf els pageHeight).isEmpty then []
  else
    match titleLargestOf els pageHeight with
    | [e] => capitalize_first_letter e.text
    | _ =>
      match sortTupleDesc (titleScoredOf els med pageHeight) with
      | [] => []
      | (_, t, _) :: _ => capitalize_first_letter t

/-- numpy's median: sort ascending; middle element for odd length, mean
of the two middles for even length. -/
def npMedian (l : List Q) : Q :=
  let s := sortBy qLe l
  if l.length = 0 then qZero
  else if l.length % 2 = 1 then (s.get? (l.length / 2)).getD qZero
  else qDiv (qAdd ((s.get? (l.length / 2 - 1)).getD qZero)
                  ((s.get? (l.length / 2)).getD qZero)) (qOfInt 2)

/-- The three guards of the candidate loop: not the title
(case-insensitive), a valid heading, not in a table row. -/
def lineGuards (title : List Char) (tableYs : List Q) (line : LineData) : Bool :=
  (title.isEmpty ||
    !(decide (lowerStr (normalize_text line.text) = lowerStr (normalize_text title)))) &&
  is_valid_heading line.text &&
  !is_in_table_row line.bbox tableYs (qOfInt 8)

def verticalGapAt (allLines : List LineData) (i : Nat) (line : LineData) : Q :=
  if i = 0 then qZero
  else
    match allLines.get? (i - 1) with
    | none => qZero
    | some prev =>
      if prev.page = line.page then qSub line.bbox.y0 prev.bbox.y1 else qZero

/-- The additive heading score of the candidate loop, branch for branch
in source order. -/
def headingScore (med bf : Q) (line : LineData) (vgap : Q) : Int :=
  let sRat := qDiv line.size med
  let s1 : Int :=
    if qLt (qMk 13 10 (by omega)) sRat then 4
    else if qLt (qMk 23 20 (by omega)) sRat && line.is_bold then 3
    else if line.is_bold && qLt bf (qMk 1 5 (by omega)) then 3 else 0
  let s2 : Int := if qLt (qOfInt 20) vgap then 2 else 0
  let s3 : Int := if numberedMarkerAt line.text then 3 else 0
  let words := splitWs line.text
  let s4 : Int := if words.length ≤ 6 && line.is_bold then 2 else 0
  let capRat := qDiv (qOfInt (capCount words)) (qOfInt (max 1 words.length))
  let s5 : Int := if qLt (qMk 7 10 (by omega)) capRat then 2 else 0
  s1 + s2 + s3 + s4 + s5

/-- One step of the candidate loop: the guards, then the score
threshold; on success the line is turned into a `Cand`. -/
def candStep (title : List Char) (tableYs : List Q) (med bf : Q)
    (allLines : List LineData) (i : Nat) (line : LineData) : Option Cand :=
  if !lineGuards title tableYs line then none
  else
    let vgap := verticalGapAt allLines i line
    let sc := headingScore med bf line vgap
    if 4 ≤ sc then some ⟨line, sc, vgap, qDiv line.size med⟩ else none

/-- The whole candidate loop of `extract_pdf_outline`. -/
def selectCandidates (title : List Char) (tableYs : List Q) (med bf : Q)
    (allLines : List LineData) : List Cand :=
  (allLines.enum).filterMap (fun p => candStep title tableYs med bf allLines p.1 p.2)

def qSum (l : List Q) : Q := l.foldl qAdd qZero

/-- numpy's mean. -/
def npMean (l : List Q) : Q := qDiv (qSum l) (qOfInt l.length)

/-- The `cluster_sizes` dictionary: label → font sizes, in label
first-occurrence order. -/
def clusterSizesOf (labels : List Nat) (cands : List Cand) : List (Nat × List Q) :=
  (labels.zip (cands.map (fun c => c.line.size))).foldl
    (fun acc p => addToGroup p.1 p.2 acc) []

def clusterMean (cs : List (Nat × List Q)) (k : Nat) : Q :=
  npMean ((cs.lookup k).getD [])

def meanDescRelB (cs : List (Nat × List Q)) (a b : Nat) : Bool :=
  qLe (clusterMean cs b) (clusterMean cs a)

/-- Model of the source's sorted-by-mean-descending key list. -/
def sortedClusterKeys (cs : List (Nat × List Q)) : List Nat :=
  sortBy (meanDescRelB cs) (cs.map Prod.fst)

/-- The level string for cluster rank `i`. -/
def levelName (i : Nat) : String := "H" ++ toString (min (i + 1) 3)

def levelMapFrom (i : Nat) : List Nat → List (Nat × String)
  | [] => []
  | k :: ks => (k, levelName i) :: levelMapFrom (i + 1) ks

/-- Level assignment: clustering for two or more candidates (the label
vector is the opaque output of the external clustering library), the
single candidate gets H1. -/
def assignLevels (cands : List Cand) (labels : List Nat) : List (Cand × String) :=
  if 2 ≤ cands.length then
    let cs := clusterSizesOf labels cands
    let lm := levelMapFrom 0 (sortedClusterKeys cs)
    (cands.enum).map (fun p => (p.2, (lm.lookup (labels.getD p.1 0)).getD "H1"))
  else
    match cands with
    | [c] => [(c, "H1")]
    | _ => []

def mkEntry (p : Cand × String) : OutlineEntry :=
  ⟨p.2, capitalize_first_letter p.1.line.text, p.1.line.page⟩

/-- The sort-key lookup of the outline sort: Y of the FIRST candidate
whose normalized lowercased text matches; `none` models the
`StopIteration` that the document-level handler would turn into the
empty result. -/
def firstMatchY (cands : List Cand) (t : List Char) : Option Q :=
  (cands.find? (fun c =>
    decide (lowerStr (normalize_text c.line.text) = lowerStr (normalize_text t)))).map
    (fun c => c.line.bbox.y0)

def attachKeys (cands : List Cand) : List OutlineEntry → Option (List (OutlineEntry × Q))
  | [] => some []
  | e :: es =>
    match firstMatchY cands e.text, attachKeys cands es with
    | some y, some ks => some ((e, y) :: ks)
    | _, _ => none

def entryPageYLe (a b : OutlineEntry × Q) : Bool :=
  if a.1.page ≠ b.1.page then decide (a.1.page < b.1.page) else qLe a.2 b.2

/-- The deduplication key `item['text'].lower().strip()`. -/
def entryKey (e : OutlineEntry) : List Char := trimWs (lowerStr e.text)

/-- Deduplication keeping the first occurrence of each key. -/
def dedupKeepFirst (key : α → List Char) : List α → List (List Char) → List α
  | [], _ => []
  | x :: xs, seen =>
    if key x ∈ seen then dedupKeepFirst key xs seen
    else x :: dedupKeepFirst key xs (key x :: seen)

def joinSpans (spans : List Span) : List Char := (spans.map Span.text).join

/-- The per-line build of the parsing loop: spans present and nonempty,
the joined stripped text nonempty and not noise, at least one span with
a size; the line record stores the normalized text, the max span size,
the any-span bold flag, the bbox and the page. -/
def buildLine (pageNum : Nat) (rl : RawLine) : Option LineData :=
  if rl.spans.isEmpty then none
  else
    let st := trimWs (joinSpans rl.spans)
    if st.isEmpty then none
    else if is_noise_content st then none
    else
      let sizes := rl.spans.filterMap Span.size
      if sizes.isEmpty then none
      else
        some ⟨normalize_text st, maxQL sizes, rl.spans.any Span.bold, rl.bbox,
              pageNum, rl.spans⟩

/-- Model of `all_lines` of the source, over the parser's page list. -/
def allLinesOf (pages : List (List RawLine)) : List LineData :=
  (pages.enum).bind (fun p => p.2.filterMap (buildLine p.1))

def fontSizesOf (pages : List (List RawLine)) : List Q :=
  (allLinesOf pages).map LineData.size

def boldCountOf (pages : List (List RawLine)) : Nat :=
  ((allLinesOf pages).filter (fun l => l.is_bold)).length

def titleOf (pages : List (List RawLine)) (pageHeight : Q) : List Char :=
  extract_title ((allLinesOf pages).filter (fun l => l.page = 0))
    (if (fontSizesOf pages).isEmpty then qOfInt 12 else npMedian (fontSizesOf pages))
    pageHeight

/-- The scored candidate set of a document. -/
def candidatesScored (pages : List (List RawLine)) (pageHeight : Q) : List Cand :=
  let allLines := allLinesOf pages
  selectCandidates (titleOf pages pageHeight) (detect_table_rows allLines)
    (npMedian (fontSizesOf pages))
    (qDiv (qOfInt (boldCountOf pages)) (qOfInt allLines.length)) allLines

/-- The refined candidate set (the three filters, applied only when the
scored set is nonempty, as in the source). -/
def candidatesFinal (pages : List (List RawLine)) (pageHeight : Q) : List Cand :=
  let cs := candidatesScored pages pageHeight
  if cs.isEmpty then cs
  else
    filter_headings_with_content
      (filter_horizontal_table_headers (filter_inconsistent_formatting cs)
        (qOfInt 10) (qOfInt 50))
      (allLinesOf pages)

def levelPairsOf (pages : List (List RawLine)) (pageHeight : Q)
    (clusterFn : List Cand → List Nat) : List (Cand × String) :=
  let cs := candidatesFinal pages pageHeight
  assignLevels cs (clusterFn cs)

/-- The sorted (pre-deduplication) outline; `none` when a sort-key
lookup fails (the exception path of the source). -/
def sortedOutlineOf (pages : List (List RawLine)) (pageHeight : Q)
    (clusterFn : List Cand → List Nat) : Option (List OutlineEntry) :=
  let cs := candidatesFinal pages pageHeight
  let entries := (levelPairsOf pages pageHeight clusterFn).map mkEntry
  (attachKeys cs entries).map (fun ks => (sortBy entryPageYLe ks).map Prod.fst)

/-- Model of `extract_pdf_outline` of the source, from the parser's output
onward. -/
def extract_pdf_outline (pages : List (List RawLine)) (pageHeight : Q)
    (clusterFn : List Cand → List Nat) : OutlineResult :=
  let allLines := allLinesOf pages
  if allLines.isEmpty then ⟨[], []⟩
  else
    let title := titleOf pages pageHeight
    if (fontSizesOf pages).isEmpty then ⟨title, []⟩
    else if (candidatesFinal pages pageHeight).isEmpty then ⟨title, []⟩
    else
      match sortedOutlineOf pages pageHeight clusterFn with
      | none => ⟨[], []⟩
      | some sorted => ⟨title, dedupKeepFirst entryKey sorted []⟩

/-- Written from the claim wording (C5): the mutually exclusive
size/bold branch, first match wins. -/
def specSizeBoldPoints (med bf : Q) (line : LineData) : Int :=
  if qLt (qMk 13 10 (by omega)) (qDiv line.size med) then 4
  else if qLt (qMk 23 20 (by omega)) (qDiv line.size med) && line.is_bold then 3
  else if line.is_bold && qLt bf (qMk 1 5 (by omega)) then 3
  else 0

/-- Written from the claim wording (C5): the gap bonus. -/
def specGapBonus (vgap : Q) : Int := if qLt (qOfInt 20) vgap then 2 else 0

/-- Written from the claim wording (C5): the numbered-marker bonus. -/
def specMarkerBonus (t : List Char) : Int := if numberedMarkerAt t then 3 else 0

/-- Written from the claim wording (C5): the short-and-bold bonus. -/
def specShortBoldBonus (line : LineData) : Int :=
  if (splitWs line.text).length ≤ 6 && line.is_bold then 2 else 0

/-- Written from the claim wording (C5): the capitalization bonus. -/
def specCapBonus (t : List Char) : Int :=
  if qLt (qMk 7 10 (by omega))
      (qDiv (qOfInt (capCount (splitWs t))) (qOfInt (max 1 (splitWs t).length)))
  then 2 else 0

/-- Written from the claim wording (C5): the additive score, the
exclusive size/bold branch plus the four independent bonuses. -/
def specAdditiveScore (med bf : Q) (line : LineData) (vgap : Q) : Int :=
  specSizeBoldPoints med bf line + specGapBonus vgap + specMarkerBonus line.text +
    specShortBoldBonus line + specCapBonus line.text

/-- Written from the claim wording (C6): three CONSECUTIVE LINES of the
(Y-sorted) bucket whose texts parse as integers n, n+1, n+2. -/
def specConsecLineTriple : List LineData → Bool
  | a :: b :: c :: rest =>
    (match numParse a, numParse b, numParse c with
     | some x, some y, some z => y.1 = x.1 + 1 && z.1 = x.1 + 2
     | _, _, _ => false) || specConsecLineTriple (b :: c :: rest)
  | _ => false

/-- Three consecutive entries n, n+1, n+2 somewhere in a number list
(used to state the corrected C6). -/
def hasConsecNumTriple : List Nat → Bool
  | a :: b :: c :: rest => (b = a + 1 && c = a + 2) || hasConsecNumTriple (b :: c :: rest)
  | _ => false

/-- Example data used by the concrete witnesses below. -/
def exBB (a b c d : Int) : BBox := ⟨qOfInt a, qOfInt b, qOfInt c, qOfInt d⟩

def exRawLine (t : String) (sz : Int) (bold : Bool) (box : BBox) : RawLine :=
  ⟨[⟨sl t, some (qOfInt sz), bold⟩], box⟩

/-- A small document: a title line, a numbered heading, and a paragraph. -/
def exPages : List (List RawLine) :=
  [[exRawLine "Project Charter" 24 true (exBB 200 50 400 70),
    exRawLine "1. Introduction" 14 true (exBB 50 120 150 135),
    exRawLine "this is a simple paragraph of prose that ends here." 10 false
      (exBB 50 140 400 150)]]

/-- A clustering stub for the examples (never consulted: the example
documents end with at most one candidate). -/
def exNoCluster : List Cand → List Nat := fun _ => []

/-- Two equal-scored title candidates, `Alpha` encountered first. -/
def exElA : LineData := ⟨sl "Alpha", qOfInt 20, false, exBB 300 10 312 20, 0, []⟩

def exElB : LineData := ⟨sl "Banana", qOfInt 20, false, exBB 300 10 312 20, 0, []⟩

/-- Two same-row candidates, 80 points of horizontal gap between them. -/
def exCandL : Cand := ⟨⟨sl "Name", qOfInt 12, false, exBB 0 0 20 10, 0, []⟩, 5, qZero, qOfInt 1⟩

def exCandR : Cand := ⟨⟨sl "Date", qOfInt 12, false, exBB 100 0 150 10, 0, []⟩, 5, qZero, qOfInt 1⟩

/-- A bucket with a non-numeric line interleaved among "1", "2", "3". -/
def exTblLine (t : String) (y : Int) : LineData :=
  ⟨sl t, qOfInt 10, false, ⟨qOfInt 0, qOfInt y, qOfInt 10, qOfInt (y + 8)⟩, 0, []⟩

def exBucket : List LineData :=
  [exTblLine "1" 10, exTblLine "x" 20, exTblLine "2" 30, exTblLine "3" 40]

/-- A page whose only line is purely numeric (filtered out as noise). -/
def exNoisePages : List (List RawLine) :=
  [[exRawLine "12345" 30 true (exBB 0 0 10 10)]]

/-- A one-line page with a bold, large heading. -/
def exOvPages : List (List RawLine) :=
  [[exRawLine "Overview" 20 true (exBB 50 50 150 60)]]

/-- The candidate the scorer produces for the `Overview` page. -/
def exOvCand : Cand :=
  ⟨⟨sl "Overview", qOfInt 20, true, exBB 50 50 150 60, 0,
    [⟨sl "Overview", some (qOfInt 20), true⟩]⟩, 8, qZero, qDiv (qOfInt 20) (qOfInt 10)⟩

/-- A line whose text is the non-numeral roman-letter word `mix`. -/
def exMixLine : LineData := ⟨sl "mix", qOfInt 11, false, exBB 5 77 25 88, 2, []⟩

/-- Two candidates for the level-assignment witness. -/
def exLvlCands : List Cand :=
  [⟨⟨sl "Big" , qOfInt 20, true, exBB 0 10 50 20, 0, []⟩, 6, qZero, qOfInt 2⟩,
   ⟨⟨sl "Small", qOfInt 12, true, exBB 0 40 50 50, 0, []⟩, 4, qZero, qOfInt 1⟩]

/-! Helper lemmas. -/

theorem qLe_trans {a b c : Q} (h1 : qLe a b = true) (h2 : qLe b c = true) :
    qLe a c = true := by
  unfold qLe at *
  simp only [decide_eq_true_eq] at *
  have ha := a.dpos
  have hb := b.dpos
  have hc := c.dpos
  have h1' : a.n * b.d * c.d ≤ b.n * a.d * c.d :=
    mul_le_mul_of_nonneg_right h1 (le_of_lt hc)
  have h2' : b.n * c.d * a.d ≤ c.n * b.d * a.d :=
    mul_le_mul_of_nonneg_right h2 (le_of_lt ha)
  have key : a.n * c.d * b.d ≤ c.n * a.d * b.d := by
    calc a.n * c.d * b.d = a.n * b.d * c.d := by ring
      _ ≤ b.n * a.d * c.d := h1'
      _ = b.n * c.d * a.d := by ring
      _ ≤ c.n * b.d * a.d := h2'
      _ = c.n * a.d * b.d := by ring
  exact le_of_mul_le_mul_right key hb

theorem qLe_total (a b : Q) : qLe a b = true ∨ qLe b a = true := by
  unfold qLe
  simp only [decide_eq_true_eq]
  exact le_total (a.n * b.d) (b.n * a.d)

theorem mem_insertBy {r : α → α → Bool} {x a : α} {l : List α} :
    a ∈ insertBy r x l ↔ a = x ∨ a ∈ l := by
  induction l with
  | nil => simp [insertBy]
  | cons y ys ih =>
    by_cases h : r x y = true
    · simp [insertBy, h]
    · simp only [insertBy, h, Bool.false_eq_true, if_false, List.mem_cons, ih]
      tauto

theorem mem_sortBy {r : α → α → Bool} {a : α} {l : List α} :
    a ∈ sortBy r l ↔ a ∈ l := by
  induction l with
  | nil => simp [sortBy]
  | cons x xs ih => simp [sortBy, mem_insertBy, ih]

theorem pairwise_insertBy {r : α → α → Bool} {x : α} {l : List α}
    (htot : ∀ a b, r a b = true ∨ r b a = true)
    (htr : ∀ a b c, r a b = true → r b c = true → r a c = true)
    (hl : l.Pairwise (fun a b => r a b = true)) :
    (insertBy r x l).Pairwise (fun a b => r a b = true) := by
  induction l with
  | nil => simp [insertBy]
  | cons y ys ih =>
    rcases List.pairwise_cons.mp hl with ⟨hy, hys⟩
    by_cases h : r x y = true
    · simp only [insertBy, h, if_true]
      refine List.pairwise_cons.mpr ⟨?_, hl⟩
      intro b hb
      rcases List.mem_cons.mp hb with rfl | hb2
      · exact h
      · exact htr x y b h (hy b hb2)
    · simp only [insertBy, h, Bool.false_eq_true, if_false]
      refine List.pairwise_cons.mpr ⟨?_, ih hys⟩
      intro b hb
      rcases mem_insertBy.mp hb with hbx | hb2
      · rw [hbx]
        rcases htot x y with hxy | hyx
        · exact absurd hxy h
        · exact hyx
      · exact hy b hb2

theorem pairwise_sortBy {r : α → α → Bool} {l : List α}
    (htot : ∀ a b, r a b = true ∨ r b a = true)
    (htr : ∀ a b c, r a b = true → r b c = true → r a c = true) :
    (sortBy r l).Pairwise (fun a b => r a b = true) := by
  induction l with
  | nil => simp [sortBy]
  | cons x xs ih => exact pairwise_insertBy htot htr ih

theorem strLtB_connex : ∀ {a b : List Char},
    strLtB a b = false → strLtB b a = false → a = b := by
  intro a
  induction a with
  | nil =>
    intro b h1 _
    cases b with
    | nil => rfl
    | cons c cs => simp [strLtB] at h1
  | cons x xs ih =>
    intro b h1 h2
    cases b with
    | nil => simp [strLtB] at h2
    | cons y ys =>
      by_cases hxy : x < y
      · simp [strLtB, hxy] at h1
      · by_cases hyx : y < x
        · simp [strLtB, hyx, hxy] at h2
        · have hx : x = y := le_antisymm (not_lt.mp hyx) (not_lt.mp hxy)
          subst hx
          simp only [strLtB, hxy, if_false, lt_self_iff_false] at h1 h2
          rw [ih h1 h2]

theorem strLtB_irrefl : ∀ (a : List Char), strLtB a a = false := by
  intro a
  induction a with
  | nil => rfl
  | cons x xs ih => simp [strLtB, ih]

theorem strLtB_trans : ∀ {a b c : List Char},
    strLtB a b = true → strLtB b c = true → strLtB a c = true := by
  intro a
  induction a with
  | nil =>
    intro b c h1 h2
    cases b with
    | nil => simp [strLtB] at h1
    | cons y ys =>
      cases c with
      | nil => simp [strLtB] at h2
      | cons z zs => simp [strLtB]
  | cons x xs ih =>
    intro b c h1 h2
    cases b with
    | nil => simp [strLtB] at h1
    | cons y ys =>
      cases c with
      | nil => simp [strLtB] at h2
      | cons z zs =>
        simp only [strLtB] at h1 h2 ⊢
        by_cases hxy : x < y
        · by_cases hyz : y < z
          · simp [lt_trans hxy hyz]
          · by_cases hzy : z < y
            · simp [strLtB, hyz, hzy] at h2
            · have : y = z := le_antisymm (not_lt.mp hzy) (not_lt.mp hyz)
              subst this
              simp [hxy]
        · by_cases hyx : y < x
          · simp [hxy, hyx] at h1
          · have hx : x = y := le_antisymm (not_lt.mp hyx) (not_lt.mp hxy)
            subst hx
            simp only [lt_self_iff_false, if_false] at h1
            by_cases hyz : x < z
            · simp [hyz]
            · by_cases hzy : z < x
              · simp [hyz, hzy] at h2
              · have : x = z := le_antisymm (not_lt.mp hzy) (not_lt.mp hyz)
                subst this
                simp only [lt_self_iff_false, if_false] at h2 ⊢
                exact ih h1 h2

theorem tupleLeB_total (a b : TitleTuple) : tupleLeB a b = true ∨ tupleLeB b a = true := by
  unfold tupleLeB
  by_cases h1 : a.1 < b.1
  · left; simp [h1]
  · by_cases h2 : b.1 < a.1
    · right; simp [h2, asymm h2]
    · by_cases h3 : strLtB a.2.1 b.2.1 = true
      · left; simp [h1, h2, h3]
      · by_cases h4 : strLtB b.2.1 a.2.1 = true
        · right; simp [h1, h2, h4]
        · have he : a.2.1 = b.2.1 :=
            strLtB_connex (Bool.not_eq_true _ ▸ h3) (Bool.not_eq_true _ ▸ h4)
          rcases qLe_total a.2.2 b.2.2 with h5 | h5
          · left; simp [h1, h2, h3, h4, h5]
          · right; simp [h1, h2, h3, h4, h5]

theorem tupleLeB_trans {a b c : TitleTuple} (h1 : tupleLeB a b = true)
    (h2 : tupleLeB b c = true) : tupleLeB a c = true := by
  unfold tupleLeB at *
  by_cases hab : a.1 < b.1
  · by_cases hbc : b.1 < c.1
    · simp [lt_trans hab hbc]
    · by_cases hcb : c.1 < b.1
      · simp [hbc, hcb] at h2
      · have : b.1 = c.1 := le_antisymm (not_lt.mp hcb) (not_lt.mp hbc)
        simp [this ▸ hab]
  · by_cases hba : b.1 < a.1
    · simp [hab, hba] at h1
    · have hab2 : a.1 = b.1 := le_antisymm (not_lt.mp hba) (not_lt.mp hab)
      by_cases hbc : b.1 < c.1
      · simp [hab2 ▸ hbc]
      · by_cases hcb : c.1 < b.1
        · simp [hbc, hcb] at h2
        · have hbc2 : b.1 = c.1 := le_antisymm (not_lt.mp hcb) (not_lt.mp hbc)
          have hac : ¬ a.1 < c.1 := by rw [hab2, hbc2]; exact lt_irrefl _
          have hca : ¬ c.1 < a.1 := by rw [hab2, hbc2]; exact lt_irrefl _
          simp only [hab, hba, hbc, hcb, hac, hca, if_false] at h1 h2 ⊢
          by_cases hs1 : strLtB a.2.1 b.2.1 = true
          · by_cases hs2 : strLtB b.2.1 c.2.1 = true
            · simp [strLtB_trans hs1 hs2]
            · by_cases hs3 : strLtB c.2.1 b.2.1 = true
              · simp [hs2, hs3] at h2
              · have : b.2.1 = c.2.1 :=
                  strLtB_connex (Bool.not_eq_true _ ▸ hs2) (Bool.not_eq_true _ ▸ hs3)
                simp [this ▸ hs1]
          · by_cases hs4 : strLtB b.2.1 a.2.1 = true
            · simp [hs1, hs4] at h1
            · have he1 : a.2.1 = b.2.1 :=
                strLtB_connex (Bool.not_eq_true _ ▸ hs1) (Bool.not_eq_true _ ▸ hs4)
              simp only [hs1, hs4, Bool.false_eq_true, if_false] at h1
              by_cases hs2 : strLtB b.2.1 c.2.1 = true
              · simp [he1 ▸ hs2]
              · by_cases hs3 : strLtB c.2.1 b.2.1 = true
                · simp [hs2, hs3] at h2
                · have he2 : b.2.1 = c.2.1 :=
                    strLtB_connex (Bool.not_eq_true _ ▸ hs2) (Bool.not_eq_true _ ▸ hs3)
                  simp only [hs2, hs3, Bool.false_eq_true, if_false] at h2
                  have hx1 : ¬ strLtB a.2.1 c.2.1 = true := by
                    rw [he1, he2, strLtB_irrefl]; simp
                  have hx2 : ¬ strLtB c.2.1 a.2.1 = true := by
                    rw [he1, he2, strLtB_irrefl]; simp
                  simp only [hx1, hx2, Bool.false_eq_true, if_false]
                  exact qLe_trans h1 h2

theorem tupleLeB_refl (a : TitleTuple) : tupleLeB a a = true := by
  unfold tupleLeB
  simp [strLtB_irrefl, qLe, le_refl]

theorem isEmpty_false_of_ne_nil {l : List α} (h : l ≠ []) : l.isEmpty = false := by
  cases l with
  | nil => exact absurd rfl h
  | cons a as => rfl

theorem fhthLoopIdx_ge_and_not_skip (fuel : Nat) :
    ∀ (cs : List Cand) (ytol gap : Q) (i : Nat) (skip : List Nat) (j : Nat),
      j ∈ fhthLoopIdx cs ytol gap i skip fuel → i ≤ j ∧ j ∉ skip := by
  induction fuel with
  | zero =>
    intro cs ytol gap i skip j h
    simp [fhthLoopIdx] at h
  | succ fu ih =>
    intro cs ytol gap i skip j h
    unfold fhthLoopIdx at h
    cases hg : cs.get? i with
    | none => rw [hg] at h; simp at h
    | some cur =>
      rw [hg] at h
      by_cases hs : i ∈ skip
      · simp only [if_pos hs] at h
        obtain ⟨h1, h2⟩ := ih cs ytol gap (i + 1) skip j h
        exact ⟨by omega, h2⟩
      · simp only [if_neg hs] at h
        by_cases hn : (hNeighborsAt cs skip i ytol gap).isEmpty = true
        · rw [if_pos hn] at h
          rcases List.mem_cons.mp h with rfl | h2
          · exact ⟨le_refl _, hs⟩
          · obtain ⟨h1, h2⟩ := ih cs ytol gap (i + 1) skip j h2
            exact ⟨by omega, h2⟩
        · rw [if_neg hn] at h
          obtain ⟨h1, h2⟩ := ih cs ytol gap (i + 1) (skip ++ hNeighborsAt cs skip i ytol gap) j h
          refine ⟨by omega, fun hj => h2 (List.mem_append_left _ hj)⟩

/-- Claim C1 (corrected): in the horizontal table-header filter, when
the current unskipped candidate has at least one horizontal neighbor,
all of those neighbors are removed AND the current candidate itself is
removed as well — its position is never emitted by the loop. -/
theorem C1_horizontal_filter_drops_current_and_neighbors
    (cs : List Cand) (ytol gap : Q) (i : Nat) (skip : List Nat) (fuel : Nat)
    (hskip : i ∉ skip) (hns : hNeighborsAt cs skip i ytol gap ≠ []) :
    i ∉ fhthLoopIdx cs ytol gap i skip fuel ∧
    ∀ n ∈ hNeighborsAt cs skip i ytol gap,
      n ∉ fhthLoopIdx cs ytol gap i skip fuel := by
  cases fuel with
  | zero => simp [fhthLoopIdx]
  | succ fu =>
    have hcur : ∃ cur, cs.get? i = some cur := by
      cases hg : cs.get? i with
      | none =>
        exfalso
        apply hns
        unfold hNeighborsAt
        rw [hg]
      | some cur => exact ⟨cur, rfl⟩
    obtain ⟨cur, hg⟩ := hcur
    have hne : (hNeighborsAt cs skip i ytol gap).isEmpty = false := by
      simpa [List.isEmpty_iff] using hns
    have hred : fhthLoopIdx cs ytol gap i skip (fu + 1) =
        fhthLoopIdx cs ytol gap (i + 1) (skip ++ hNeighborsAt cs skip i ytol gap) fu := by
      conv_lhs => unfold fhthLoopIdx
      rw [hg]
      simp only [if_neg hskip, hne, Bool.false_eq_true, if_false]
    rw [hred]
    constructor
    · intro hmem
      obtain ⟨h1, _⟩ := fhthLoopIdx_ge_and_not_skip fu cs ytol gap (i + 1)
        (skip ++ hNeighborsAt cs skip i ytol gap) i hmem
      omega
    · intro n hn hmem
      obtain ⟨_, h2⟩ := fhthLoopIdx_ge_and_not_skip fu cs ytol gap (i + 1)
        (skip ++ hNeighborsAt cs skip i ytol gap) n hmem
      exact h2 (List.mem_append_right _ hn)

/-- Claim C1, witness: the amended theorem applied to the concrete
two-candidate row. -/
theorem C1_witness :
    0 ∉ fhthLoopIdx (sortCandsPageYX [exCandL, exCandR]) (qOfInt 10) (qOfInt 50) 0 [] 2 ∧
    ∀ n ∈ hNeighborsAt (sortCandsPageYX [exCandL, exCandR]) [] 0 (qOfInt 10) (qOfInt 50),
      n ∉ fhthLoopIdx (sortCandsPageYX [exCandL, exCandR]) (qOfInt 10) (qOfInt 50) 0 [] 2 :=
  C1_horizontal_filter_drops_current_and_neighbors
    (sortCandsPageYX [exCandL, exCandR]) (qOfInt 10) (qOfInt 50) 0 [] 2
    (by decide) (by decide)

/-- Claim C1, counterexample: the sorted candidate list is
`[exCandL, exCandR]`, the first candidate has the second as a
horizontal neighbor (same Y, 80 points past its right edge), yet the
filter output is empty — the current candidate is NOT kept, refuting
"the current candidate itself is kept in the output". -/
theorem C1_counterexample :
    sortCandsPageYX [exCandL, exCandR] = [exCandL, exCandR] ∧
    hNeighborsAt (sortCandsPageYX [exCandL, exCandR]) [] 0 (qOfInt 10) (qOfInt 50) = [1] ∧
    filter_horizontal_table_headers [exCandL, exCandR] (qOfInt 10) (qOfInt 50) = [] := by
  decide

/-- Claim C2 (corrected): among the surviving largest-size title
candidates with at least two members, the returned title is the
candidate whose `(score, text, size)` tuple is MAXIMAL in the
descending tuple order (score first, then lexicographically larger
text, then larger size) — not the first-encountered candidate. -/
theorem C2_title_tie_lex (els : List LineData) (med pageHeight : Q)
    (s : Int) (t : List Char) (sz : Q) (rest : List TitleTuple)
    (hlen : 2 ≤ (titleLargestOf els pageHeight).length)
    (hsort : sortTupleDesc (titleScoredOf els med pageHeight) = (s, t, sz) :: rest) :
    extract_title els med pageHeight = capitalize_first_letter t ∧
    ∀ x ∈ titleScoredOf els med pageHeight, tupleLeB x (s, t, sz) = true := by
  have hcands0 : titleCandsOf els pageHeight ≠ [] := by
    intro h
    rw [titleLargestOf, h] at hlen
    simp at hlen
  have htop0 : titleTop els pageHeight ≠ [] := by
    intro h
    exact hcands0 (by rw [titleCandsOf, h]; rfl)
  have hels0 : els ≠ [] := by
    intro h
    exact htop0 (by rw [titleTop, h]; rfl)
  have hcands := isEmpty_false_of_ne_nil hcands0
  have htop := isEmpty_false_of_ne_nil htop0
  have hels := isEmpty_false_of_ne_nil hels0
  constructor
  · rw [extract_title, hels, htop, hcands]
    simp only [Bool.false_eq_true, if_false]
    rcases hL : titleLargestOf els pageHeight with _ | ⟨a, _ | ⟨b, l2⟩⟩
    · rw [hL] at hlen; simp at hlen
    · rw [hL] at hlen; simp at hlen
    · rw [hsort]
  · intro x hx
    have hpw := pairwise_sortBy (r := fun a b => tupleLeB b a)
      (l := titleScoredOf els med pageHeight)
      (fun a b => tupleLeB_total b a)
      (fun a b c h1 h2 => tupleLeB_trans h2 h1)
    rw [show sortBy (fun a b => tupleLeB b a) (titleScoredOf els med pageHeight) =
          sortTupleDesc (titleScoredOf els med pageHeight) from rfl, hsort] at hpw
    have hx2 : x ∈ sortTupleDesc (titleScoredOf els med pageHeight) := by
      rw [sortTupleDesc]
      exact mem_sortBy.mpr hx
    rw [hsort] at hx2
    rcases List.mem_cons.mp hx2 with rfl | hx3
    · exact tupleLeB_refl _
    · exact (List.pairwise_cons.mp hpw).1 x hx3

/-- Claim C2, witness: the amended theorem at the concrete two-element
tie. -/
theorem C2_witness :
    extract_title [exElA, exElB] (qOfInt 10) (qOfInt 792) =
      capitalize_first_letter (sl "Banana") ∧
    ∀ x ∈ titleScoredOf [exElA, exElB] (qOfInt 10) (qOfInt 792),
      tupleLeB x (18, sl "Banana", qOfInt 20) = true :=
  C2_title_tie_lex [exElA, exElB] (qOfInt 10) (qOfInt 792) 18 (sl "Banana") (qOfInt 20)
    [(18, sl "Alpha", qOfInt 20)] (by decide) (by decide)

/-- Claim C2, counterexample: `Alpha` and `Banana` tie at score 18 and
`Alpha` is encountered first, but the title returned is `Banana` — the
tie is broken by the lexicographically larger text, not by encounter
order. -/
theorem C2_counterexample :
    exElA.text = sl "Alpha" ∧ exElB.text = sl "Banana" ∧
    titleScore (qOfInt 10) (sixtyPct (qOfInt 792)) exElA = 18 ∧
    titleScore (qOfInt 10) (sixtyPct (qOfInt 792)) exElB = 18 ∧
    extract_title [exElA, exElB] (qOfInt 10) (qOfInt 792) = sl "Banana" := by
  decide

/-- Claim C4 (confirmed): a document from which zero lines are
extracted yields exactly the empty result. -/
theorem C4_empty_document (pages : List (List RawLine)) (pageHeight : Q)
    (clusterFn : List Cand → List Nat) (h : allLinesOf pages = []) :
    extract_pdf_outline pages pageHeight clusterFn = ⟨[], []⟩ := by
  unfold extract_pdf_outline
  rw [h]
  rfl

/-- Claim C4, witness: a page whose only line is pure-number noise. -/
theorem C4_witness :
    extract_pdf_outline exNoisePages (qOfInt 792) exNoCluster = ⟨[], []⟩ :=
  C4_empty_document exNoisePages (qOfInt 792) exNoCluster (by decide)

theorem findTripleIdxGo_isSome : ∀ (ns : List Nat) (i : Nat),
    (findTripleIdxGo ns i).isSome = hasConsecNumTriple ns := by
  intro ns
  induction ns with
  | nil => intro i; rfl
  | cons a tl ih =>
    intro i
    match tl, ih with
    | [], _ => rfl
    | [b], _ => rfl
    | b :: c :: rest, ih =>
      by_cases h : b = a + 1 ∧ c = a + 2
      · simp [findTripleIdxGo, hasConsecNumTriple, h.1, h.2]
      · have hb : (decide (b = a + 1) && decide (c = a + 2)) = false := by
          rcases Decidable.em (b = a + 1) with h1 | h1
          · rcases Decidable.em (c = a + 2) with h2 | h2
            · exact absurd ⟨h1, h2⟩ h
            · simp [h2]
          · simp [h1]
        simp only [findTripleIdxGo, if_neg h, hasConsecNumTriple, hb, Bool.false_or]
        exact ih (i + 1)

theorem findTripleIdxGo_lt : ∀ (ns : List Nat) (i0 i : Nat),
    findTripleIdxGo ns i0 = some i → i0 ≤ i ∧ i - i0 + 2 < ns.length := by
  intro ns
  induction ns with
  | nil => intro i0 i h; simp [findTripleIdxGo] at h
  | cons a tl ih =>
    intro i0 i h
    match tl, ih, h with
    | [], _, h => simp [findTripleIdxGo] at h
    | [b], _, h => simp [findTripleIdxGo] at h
    | b :: c :: rest, ih, h =>
      by_cases hc : b = a + 1 ∧ c = a + 2
      · rw [findTripleIdxGo, if_pos hc] at h
        injection h with h
        subst h
        simp
      · rw [findTripleIdxGo, if_neg hc] at h
        obtain ⟨h1, h2⟩ := ih (i0 + 1) i h
        simp only [List.length_cons] at h2 ⊢
        omega

theorem hasConsec_length : ∀ (ns : List Nat), hasConsecNumTriple ns = true → 3 ≤ ns.length := by
  intro ns h
  match ns, h with
  | a :: b :: c :: rest, _ => simp

/-- Claim C6 (corrected): the bucket scan adds Y-coordinates exactly
when the NUMERIC-FILTERED subsequence of the Y-sorted bucket (texts
matching the integer pattern) contains three consecutive entries
n, n+1, n+2 — not when three consecutive LINES of the bucket do. -/
theorem C6_bucket_scan_iff (xlines : List LineData) :
    bucketScanYs xlines ≠ [] ↔
      3 ≤ xlines.length ∧
      hasConsecNumTriple (((sortByY xlines).filterMap numParse).map Prod.fst) = true := by
  unfold bucketScanYs
  by_cases hlen : xlines.length < 3
  · simp only [if_pos hlen]
    constructor
    · intro h; exact absurd rfl h
    · rintro ⟨h, _⟩; omega
  · simp only [if_neg hlen]
    by_cases h3 : 3 ≤ ((sortByY xlines).filterMap numParse).length
    · simp only [if_pos h3]
      constructor
      · intro hne
        refine ⟨by omega, ?_⟩
        unfold tripleScanYs at hne
        cases hf : findTripleIdxGo (((sortByY xlines).filterMap numParse).map Prod.fst) 0 with
        | none => rw [hf] at hne; simp at hne
        | some i =>
          have hs := findTripleIdxGo_isSome
            (((sortByY xlines).filterMap numParse).map Prod.fst) 0
          rw [hf] at hs
          simpa using hs.symm
      · rintro ⟨_, hc⟩
        have hs := findTripleIdxGo_isSome
          (((sortByY xlines).filterMap numParse).map Prod.fst) 0
        rw [hc] at hs
        cases hf : findTripleIdxGo (((sortByY xlines).filterMap numParse).map Prod.fst) 0 with
        | none => rw [hf] at hs; simp at hs
        | some i =>
          obtain ⟨_, hb⟩ := findTripleIdxGo_lt _ 0 i hf
          unfold tripleScanYs
          rw [hf]
          intro hnil
          rcases List.take_eq_nil_iff.mp hnil with hmin | hdrop
          · simp only [List.length_map] at hb
            have : (((sortByY xlines).filterMap numParse).map Prod.snd).length =
                ((sortByY xlines).filterMap numParse).length := by simp
            omega
          · have := List.drop_eq_nil_iff.mp hdrop
            simp only [List.length_map] at this hb
            omega
    · simp only [if_neg h3]
      constructor
      · intro h; exact absurd rfl h
      · rintro ⟨_, hc⟩
        have := hasConsec_length _ hc
        simp only [List.length_map] at this
        omega

/-- Claim C6, counterexample: a 4-line bucket "1", "x", "2", "3" — no
three CONSECUTIVE LINES parse as n, n+1, n+2 (the "x" interrupts), yet
the scan adds the Y-coordinates of "1", "2", "3". -/
theorem C6_counterexample :
    bucketScanYs exBucket = [qOfInt 10, qOfInt 30, qOfInt 40] ∧
    specConsecLineTriple (sortByY exBucket) = false := by
  decide

theorem collapseGo_nospace (t : List Char) (h : ∀ c ∈ t, pyIsSpace c = false) :
    ∀ b, collapseGo b t = t := by
  induction t with
  | nil => intro b; rfl
  | cons c cs ih =>
    intro b
    have hc := h c (List.mem_cons_self c cs)
    simp only [collapseGo, hc, Bool.false_eq_true, if_false]
    rw [ih (fun x hx => h x (List.mem_cons_of_mem c hx)) false]

theorem dropWhile_nospace (t : List Char) (h : ∀ c ∈ t, pyIsSpace c = false) :
    t.dropWhile pyIsSpace = t := by
  cases t with
  | nil => rfl
  | cons c cs =>
    have hc := h c (List.mem_cons_self c cs)
    simp [List.dropWhile_cons, hc]

theorem trimWs_nospace (t : List Char) (h : ∀ c ∈ t, pyIsSpace c = false) :
    trimWs t = t := by
  unfold trimWs
  rw [dropWhile_nospace t h,
      dropWhile_nospace t.reverse (fun c hc => h c (List.mem_reverse.mp hc)),
      List.reverse_reverse]

theorem normalize_nospace (t : List Char) (h : ∀ c ∈ t, pyIsSpace c = false) :
    normalize_text t = t := by
  unfold normalize_text
  rw [collapseGo_nospace t h false, trimWs_nospace t h]

theorem takeRun_all (p : Char → Bool) (w r : List Char) (h : ∀ c ∈ w, p c = true) :
    takeRun p (w ++ r) = (w.length + (takeRun p r).1, (takeRun p r).2) := by
  induction w with
  | nil => simp
  | cons c cs ih =>
    have hc := h c (List.mem_cons_self c cs)
    simp only [List.cons_append, takeRun, hc, if_true, List.append_eq]
    rw [ih (fun x hx => h x (List.mem_cons_of_mem c hx))]
    simp only [List.length_cons, Prod.mk.injEq]
    exact ⟨by omega, trivial⟩

theorem roman_char_facts {c : Char}
    (h : isRomanLowChar c = true ∨ isRomanUpChar c = true) :
    isRomanLowChar c.toLower = true ∧ pyIsSpace c = false := by
  rcases h with h | h <;>
    simp only [isRomanLowChar, isRomanUpChar, Bool.or_eq_true, decide_eq_true_eq] at h <;>
    rcases h with ((((((h | h) | h) | h) | h) | h) | h) <;> subst h <;>
      exact ⟨by decide, by decide⟩

theorem matchRomanLow_of (w p : List Char) (hw : w ≠ [])
    (hall : ∀ c ∈ w, isRomanLowChar c = true) (hp : p = [] ∨ p = ['.']) :
    matchRomanLow (w ++ p) = true := by
  unfold matchRomanLow
  rw [takeRun_all isRomanLowChar w p hall]
  have hr : takeRun isRomanLowChar p = (0, p) := by
    rcases hp with rfl | rfl <;> rfl
  rw [hr]
  simp only
  have h1 : 1 ≤ w.length + 0 := by
    cases w with
    | nil => exact absurd rfl hw
    | cons a as => simp
  rw [Bool.and_eq_true]
  refine ⟨by simpa using h1, ?_⟩
  rcases hp with rfl | rfl <;> rfl

theorem any_qEqv_insertY (y z : Q) (s : List Q) (h : s.any (qEqv y) = true) :
    (insertY z s).any (qEqv y) = true := by
  unfold insertY
  split
  · exact h
  · simp only [List.any_append, Bool.or_eq_true]
    exact Or.inl h

theorem any_qEqv_insertY_self (y : Q) (s : List Q) :
    (insertY y s).any (qEqv y) = true := by
  unfold insertY
  split
  · assumption
  · simp [List.any_append, qEqv]

theorem any_qEqv_foldl_insertY (l : List Q) : ∀ (acc : List Q) (y : Q),
    acc.any (qEqv y) = true →
    (l.foldl (fun a z => insertY z a) acc).any (qEqv y) = true := by
  induction l with
  | nil => intro acc y h; exact h
  | cons z zs ih =>
    intro acc y h
    exact ih (insertY z acc) y (any_qEqv_insertY y z acc h)

theorem any_qEqv_serialFold (lines : List LineData) : ∀ (acc : List Q) (y : Q),
    acc.any (qEqv y) = true →
    ((lines.foldl (fun acc line =>
        if is_serial_number line.text then insertY line.bbox.y0 acc else acc) acc).any
      (qEqv y)) = true := by
  induction lines with
  | nil => intro acc y h; exact h
  | cons l ls ih =>
    intro acc y h
    simp only [List.foldl_cons]
    apply ih
    split
    · exact any_qEqv_insertY y l.bbox.y0 acc h
    · exact h

theorem serial_mem_fold (lines : List LineData) : ∀ (acc : List Q) (l : LineData),
    l ∈ lines → is_serial_number l.text = true →
    ((lines.foldl (fun acc line =>
        if is_serial_number line.text then insertY line.bbox.y0 acc else acc) acc).any
      (qEqv l.bbox.y0)) = true := by
  induction lines with
  | nil => intro acc l h; simp at h
  | cons x xs ih =>
    intro acc l hmem hser
    simp only [List.foldl_cons]
    rcases List.mem_cons.mp hmem with rfl | hmem2
    · rw [if_pos hser]
      exact any_qEqv_serialFold xs _ _ (any_qEqv_insertY_self l.bbox.y0 acc)
    · exact ih _ l hmem2 hser

theorem any_qEqv_bucketFold (xbs : List (Int × List LineData)) : ∀ (acc : List Q) (y : Q),
    acc.any (qEqv y) = true →
    ((xbs.foldl (fun acc2 xb =>
        (bucketScanYs xb.2).foldl (fun a y => insertY y a) acc2) acc).any (qEqv y)) = true := by
  induction xbs with
  | nil => intro acc y h; exact h
  | cons xb rest ih =>
    intro acc y h
    simp only [List.foldl_cons]
    exact ih _ y (any_qEqv_foldl_insertY _ _ y h)

theorem any_qEqv_pageFold (pgs : List (Nat × List LineData)) : ∀ (acc : List Q) (y : Q),
    acc.any (qEqv y) = true →
    ((pgs.foldl (fun acc pg =>
        (groupPairs xBucketKey pg.2).foldl (fun acc2 xb =>
          (bucketScanYs xb.2).foldl (fun a y => insertY y a) acc2) acc) acc).any
      (qEqv y)) = true := by
  induction pgs with
  | nil => intro acc y h; exact h
  | cons pg rest ih =>
    intro acc y h
    simp only [List.foldl_cons]
    exact ih _ y (any_qEqv_bucketFold _ _ y h)

theorem serial_y_in_detect (lines : List LineData) (l : LineData)
    (hl : l ∈ lines) (hs : is_serial_number l.text = true) :
    (detect_table_rows lines).any (qEqv l.bbox.y0) = true := by
  unfold detect_table_rows
  exact any_qEqv_pageFold _ _ _ (serial_mem_fold lines [] l hl hs)

/-- Claim C10 (confirmed): every nonempty word of roman-numeral letters
(either case, optional trailing dot) — including non-numerals such as
"mix" — satisfies `is_serial_number`, and a line with such a text
contributes its Y-coordinate to the table-row suppression set. -/
theorem C10_roman_serial (w p t : List Char) (lines : List LineData) (l : LineData)
    (hw : w ≠ [])
    (hall : ∀ c ∈ w, isRomanLowChar c = true ∨ isRomanUpChar c = true)
    (hp : p = [] ∨ p = ['.']) (ht : t = w ++ p)
    (hl : l ∈ lines) (hlt : l.text = t) :
    is_serial_number t = true ∧
    (detect_table_rows lines).any (qEqv l.bbox.y0) = true := by
  have hnospace : ∀ c ∈ t, pyIsSpace c = false := by
    intro c hc
    rw [ht] at hc
    rcases List.mem_append.mp hc with hcw | hcp
    · exact (roman_char_facts (hall c hcw)).2
    · rcases hp with rfl | rfl
      · simp at hcp
      · rcases List.mem_singleton.mp hcp with rfl
        decide
  have hser : is_serial_number t = true := by
    simp only [is_serial_number]
    rw [normalize_nospace t hnospace, ht]
    have hlw : lowerStr (w ++ p) = (w.map Char.toLower) ++ p := by
      unfold lowerStr
      rw [List.map_append]
      congr 1
      rcases hp with rfl | rfl <;> rfl
    rw [hlw]
    have hroman : matchRomanLow ((w.map Char.toLower) ++ p) = true := by
      apply matchRomanLow_of
      · intro h
        exact hw (List.map_eq_nil_iff.mp h)
      · intro c hc
        obtain ⟨c0, hc0, rfl⟩ := List.mem_map.mp hc
        exact (roman_char_facts (hall c0 hc0)).1
      · exact hp
    rw [hroman]
    simp
  refine ⟨hser, ?_⟩
  apply serial_y_in_detect lines l hl
  rw [hlt]
  exact hser

/-- Claim C10, witness: the non-numeral roman word "mix". -/
theorem C10_witness :
    is_serial_number (sl "mix") = true ∧
    (detect_table_rows [exMixLine]).any (qEqv exMixLine.bbox.y0) = true :=
  C10_roman_serial (sl "mix") [] (sl "mix") [exMixLine] exMixLine
    (by decide) (by decide) (Or.inl rfl) rfl (by decide) (by decide)

theorem candStep_some {title : List Char} {tableYs : List Q} {med bf : Q}
    {allLines : List LineData} {j : Nat} {l0 : LineData} {c : Cand}
    (h : candStep title tableYs med bf allLines j l0 = some c) :
    lineGuards title tableYs l0 = true ∧ c.line = l0 ∧ 4 ≤ c.score ∧
    c.score = headingScore med bf l0 (verticalGapAt allLines j l0) := by
  unfold candStep at h
  by_cases hg : lineGuards title tableYs l0 = true
  · rw [hg] at h
    simp only [Bool.not_true, Bool.false_eq_true, if_false] at h
    by_cases hs : 4 ≤ headingScore med bf l0 (verticalGapAt allLines j l0)
    · rw [if_pos hs] at h
      injection h with h
      subst h
      exact ⟨hg, rfl, hs, rfl⟩
    · rw [if_neg hs] at h
      exact absurd h (by simp)
  · rw [Bool.not_eq_true] at hg
    rw [hg] at h
    simp at h

/-- Claim C5 (confirmed): for a line passing the three candidate-loop
guards, the code's score equals the claim's additive score (exclusive
size/bold branch plus four independent bonuses), and the line yields a
candidate if and only if that additive score is at least 4. -/
theorem C5_score_threshold (title : List Char) (tableYs : List Q) (med bf : Q)
    (allLines : List LineData) (i : Nat) (line : LineData)
    (hline : allLines.get? i = some line)
    (hguards : lineGuards title tableYs line = true) :
    headingScore med bf line (verticalGapAt allLines i line) =
      specAdditiveScore med bf line (verticalGapAt allLines i line) ∧
    ((∃ c ∈ selectCandidates title tableYs med bf allLines,
        c.line = line ∧
        c.score = headingScore med bf line (verticalGapAt allLines i line)) ↔
      4 ≤ specAdditiveScore med bf line (verticalGapAt allLines i line)) := by
  have heq : headingScore med bf line (verticalGapAt allLines i line) =
      specAdditiveScore med bf line (verticalGapAt allLines i line) := by
    unfold headingScore specAdditiveScore specSizeBoldPoints specGapBonus specMarkerBonus
      specShortBoldBonus specCapBonus
    rfl
  refine ⟨heq, ?_, ?_⟩
  · rintro ⟨c, hc, _, hcs⟩
    obtain ⟨p, hp, hstep⟩ := List.mem_filterMap.mp hc
    obtain ⟨_, _, hscore, _⟩ := candStep_some hstep
    rw [← heq, ← hcs]
    exact hscore
  · intro hs
    rw [← heq] at hs
    refine ⟨⟨line, headingScore med bf line (verticalGapAt allLines i line),
      verticalGapAt allLines i line, qDiv line.size med⟩, ?_, rfl, rfl⟩
    apply List.mem_filterMap.mpr
    refine ⟨(i, line), ?_, ?_⟩
    · exact List.mem_enum_iff_get?.mpr (by simpa using hline)
    · unfold candStep
      rw [hguards]
      simp only [Bool.not_true, Bool.false_eq_true, if_false]
      rw [if_pos hs]

/-- Claim C5, witness: the concrete one-line `Overview` page. -/
theorem C5_witness :
    headingScore (qOfInt 10) qZero
        (⟨sl "Overview", qOfInt 20, true, exBB 50 50 150 60, 0,
          [⟨sl "Overview", some (qOfInt 20), true⟩]⟩ : LineData)
        (verticalGapAt (allLinesOf exOvPages) 0
          ⟨sl "Overview", qOfInt 20, true, exBB 50 50 150 60, 0,
            [⟨sl "Overview", some (qOfInt 20), true⟩]⟩) =
      specAdditiveScore (qOfInt 10) qZero
        ⟨sl "Overview", qOfInt 20, true, exBB 50 50 150 60, 0,
          [⟨sl "Overview", some (qOfInt 20), true⟩]⟩
        (verticalGapAt (allLinesOf exOvPages) 0
          ⟨sl "Overview", qOfInt 20, true, exBB 50 50 150 60, 0,
            [⟨sl "Overview", some (qOfInt 20), true⟩]⟩) ∧
    ((∃ c ∈ selectCandidates [] [] (qOfInt 10) qZero (allLinesOf exOvPages),
        c.line = ⟨sl "Overview", qOfInt 20, true, exBB 50 50 150 60, 0,
          [⟨sl "Overview", some (qOfInt 20), true⟩]⟩ ∧
        c.score = headingScore (qOfInt 10) qZero
          ⟨sl "Overview", qOfInt 20, true, exBB 50 50 150 60, 0,
            [⟨sl "Overview", some (qOfInt 20), true⟩]⟩
          (verticalGapAt (allLinesOf exOvPages) 0
            ⟨sl "Overview", qOfInt 20, true, exBB 50 50 150 60, 0,
              [⟨sl "Overview", some (qOfInt 20), true⟩]⟩)) ↔
      4 ≤ specAdditiveScore (qOfInt 10) qZero
        ⟨sl "Overview", qOfInt 20, true, exBB 50 50 150 60, 0,
          [⟨sl "Overview", some (qOfInt 20), true⟩]⟩
        (verticalGapAt (allLinesOf exOvPages) 0
          ⟨sl "Overview", qOfInt 20, true, exBB 50 50 150 60, 0,
            [⟨sl "Overview", some (qOfInt 20), true⟩]⟩)) :=
  C5_score_threshold [] [] (qOfInt 10) qZero (allLinesOf exOvPages) 0
    ⟨sl "Overview", qOfInt 20, true, exBB 50 50 150 60, 0,
      [⟨sl "Overview", some (qOfInt 20), true⟩]⟩
    (by decide) (by decide)

theorem lookup_levelMapFrom : ∀ (ks : List Nat) (off k : Nat) (lvl : String),
    (levelMapFrom off ks).lookup k = some lvl →
    ∃ j, ks.get? j = some k ∧ lvl = levelName (off + j) := by
  intro ks
  induction ks with
  | nil => intro off k lvl h; simp [levelMapFrom] at h
  | cons k0 ks ih =>
    intro off k lvl h
    rw [levelMapFrom, List.lookup_cons] at h
    by_cases hk : k = k0
    · subst hk
      simp only [beq_self_eq_true] at h
      injection h with h
      exact ⟨0, by simp, by simpa using h.symm⟩
    · have hb : (k == k0) = false := beq_false_of_ne hk
      rw [hb] at h
      obtain ⟨j, hj1, hj2⟩ := ih (off + 1) k lvl h
      exact ⟨j + 1, by simpa using hj1, by rw [hj2]; congr 1; omega⟩

theorem levelName_ge2 (j : Nat) (h : 2 ≤ j) : levelName j = "H3" := by
  unfold levelName
  rw [Nat.min_eq_right (by omega)]
  rfl

theorem levelName_H1_iff (j : Nat) : levelName j = "H1" ↔ j = 0 := by
  constructor
  · intro h
    match j with
    | 0 => rfl
    | 1 => exact absurd h (by decide)
    | j + 2 => rw [levelName_ge2 (j + 2) (by omega)] at h; exact absurd h (by decide)
  · rintro rfl; rfl

theorem levelName_H2_iff (j : Nat) : levelName j = "H2" ↔ j = 1 := by
  constructor
  · intro h
    match j with
    | 0 => exact absurd h (by decide)
    | 1 => rfl
    | j + 2 => rw [levelName_ge2 (j + 2) (by omega)] at h; exact absurd h (by decide)
  · rintro rfl; rfl

theorem levelName_H3_iff (j : Nat) : levelName j = "H3" ↔ 2 ≤ j := by
  constructor
  · intro h
    match j with
    | 0 => exact absurd h (by decide)
    | 1 => exact absurd h (by decide)
    | j + 2 => omega
  · exact levelName_ge2 j

theorem levelName_mem (j : Nat) :
    levelName j = "H1" ∨ levelName j = "H2" ∨ levelName j = "H3" := by
  match j with
  | 0 => exact Or.inl rfl
  | 1 => exact Or.inr (Or.inl rfl)
  | j + 2 => exact Or.inr (Or.inr (levelName_ge2 (j + 2) (by omega)))

theorem pairwise_get? {R : α → α → Prop} : ∀ {l : List α}, l.Pairwise R →
    ∀ (i j : Nat) (a b : α), i < j → l.get? i = some a → l.get? j = some b → R a b := by
  intro l hl
  induction hl with
  | nil => intro i j a b hij h1 h2; simp at h1
  | @cons x xs hhead htail ih =>
    intro i j a b hij h1 h2
    match i, j with
    | 0, j + 1 =>
      rw [List.get?_cons_zero] at h1
      injection h1 with h1
      subst h1
      exact hhead b (List.get?_mem (by simpa using h2))
    | i + 1, j + 1 =>
      exact ih i j a b (by omega) (by simpa using h1) (by simpa using h2)

theorem sortedClusterKeys_pairwise (cs : List (Nat × List Q)) :
    (sortedClusterKeys cs).Pairwise (fun a b => meanDescRelB cs a b = true) :=
  pairwise_sortBy
    (fun a b => qLe_total (clusterMean cs b) (clusterMean cs a))
    (fun _ _ _ h1 h2 => qLe_trans h2 h1)

/-- Claim C7 (confirmed): levels respect font-size ordering — the
cluster mapped to H1 has mean size at least the H2 cluster's mean,
which is at least any H3 cluster's mean, and no level beyond H3 is
ever assigned, whatever the label vector. -/
theorem C7_level_monotonicity (cands : List Cand) (labels : List Nat)
    (h2 : 2 ≤ cands.length) :
    (∀ pr ∈ assignLevels cands labels, pr.2 = "H1" ∨ pr.2 = "H2" ∨ pr.2 = "H3") ∧
    (∀ ka kb,
      (levelMapFrom 0 (sortedClusterKeys (clusterSizesOf labels cands))).lookup ka =
          some "H1" →
      (levelMapFrom 0 (sortedClusterKeys (clusterSizesOf labels cands))).lookup kb =
          some "H2" →
      qLe (clusterMean (clusterSizesOf labels cands) kb)
          (clusterMean (clusterSizesOf labels cands) ka) = true) ∧
    (∀ ka kb,
      (levelMapFrom 0 (sortedClusterKeys (clusterSizesOf labels cands))).lookup ka =
          some "H2" →
      (levelMapFrom 0 (sortedClusterKeys (clusterSizesOf labels cands))).lookup kb =
          some "H3" →
      qLe (clusterMean (clusterSizesOf labels cands) kb)
          (clusterMean (clusterSizesOf labels cands) ka) = true) := by
  refine ⟨?_, ?_, ?_⟩
  · intro pr hpr
    unfold assignLevels at hpr
    rw [if_pos h2] at hpr
    obtain ⟨p, _, hmk⟩ := List.mem_map.mp hpr
    have hlvl : pr.2 = ((levelMapFrom 0
        (sortedClusterKeys (clusterSizesOf labels cands))).lookup
          (labels.getD p.1 0)).getD "H1" := by
      rw [← hmk]
    rw [hlvl]
    cases hlk : (levelMapFrom 0
        (sortedClusterKeys (clusterSizesOf labels cands))).lookup (labels.getD p.1 0) with
    | none => exact Or.inl rfl
    | some lvl =>
      obtain ⟨j, _, hj⟩ := lookup_levelMapFrom _ 0 _ lvl hlk
      simp only [Option.getD_some]
      rw [hj]
      simpa using levelName_mem j
  · intro ka kb hka hkb
    obtain ⟨ja, hja, hja2⟩ := lookup_levelMapFrom _ 0 ka "H1" hka
    obtain ⟨jb, hjb, hjb2⟩ := lookup_levelMapFrom _ 0 kb "H2" hkb
    have hja0 : ja = 0 := (levelName_H1_iff ja).mp (by simpa using hja2.symm)
    have hjb1 : jb = 1 := (levelName_H2_iff jb).mp (by simpa using hjb2.symm)
    subst hja0; subst hjb1
    exact pairwise_get? (sortedClusterKeys_pairwise (clusterSizesOf labels cands))
      0 1 ka kb (by omega) hja hjb
  · intro ka kb hka hkb
    obtain ⟨ja, hja, hja2⟩ := lookup_levelMapFrom _ 0 ka "H2" hka
    obtain ⟨jb, hjb, hjb2⟩ := lookup_levelMapFrom _ 0 kb "H3" hkb
    have hja1 : ja = 1 := (levelName_H2_iff ja).mp (by simpa using hja2.symm)
    have hjb2' : 2 ≤ jb := (levelName_H3_iff jb).mp (by simpa using hjb2.symm)
    subst hja1
    exact pairwise_get? (sortedClusterKeys_pairwise (clusterSizesOf labels cands))
      1 jb ka kb (by omega) hja hjb

/-- Claim C7, witness: two candidates in two clusters. -/
theorem C7_witness :
    (∀ pr ∈ assignLevels exLvlCands [0, 1], pr.2 = "H1" ∨ pr.2 = "H2" ∨ pr.2 = "H3") ∧
    (∀ ka kb,
      (levelMapFrom 0 (sortedClusterKeys (clusterSizesOf [0, 1] exLvlCands))).lookup ka =
          some "H1" →
      (levelMapFrom 0 (sortedClusterKeys (clusterSizesOf [0, 1] exLvlCands))).lookup kb =
          some "H2" →
      qLe (clusterMean (clusterSizesOf [0, 1] exLvlCands) kb)
          (clusterMean (clusterSizesOf [0, 1] exLvlCands) ka) = true) ∧
    (∀ ka kb,
      (levelMapFrom 0 (sortedClusterKeys (clusterSizesOf [0, 1] exLvlCands))).lookup ka =
          some "H2" →
      (levelMapFrom 0 (sortedClusterKeys (clusterSizesOf [0, 1] exLvlCands))).lookup kb =
          some "H3" →
      qLe (clusterMean (clusterSizesOf [0, 1] exLvlCands) kb)
          (clusterMean (clusterSizesOf [0, 1] exLvlCands) ka) = true) :=
  C7_level_monotonicity exLvlCands [0, 1] (by decide)

theorem toNat_ofNat_valid (m : Nat) (h : m < 55296) : (Char.ofNat m).toNat = m := by
  rw [Char.ofNat, dif_pos (Or.inl h)]
  rw [Char.ofNatAux, Char.toNat]
  simp [UInt32.toNat]

theorem toLower_toUpper (c : Char) : c.toUpper.toLower = c.toLower := by
  unfold Char.toUpper
  by_cases h : c.toNat ≥ 97 ∧ c.toNat ≤ 122
  · rw [if_pos h]
    unfold Char.toLower
    have hv : (Char.ofNat (c.toNat - 32)).toNat = c.toNat - 32 :=
      toNat_ofNat_valid _ (by omega)
    rw [hv, if_pos (by omega)]
    have he : c.toNat - 32 + 32 = c.toNat := by omega
    rw [he, Char.ofNat_toNat, if_neg (by omega)]
  · rw [if_neg h]

theorem pyIsSpace_false_of_ge (c : Char) (h : 65 ≤ c.toNat) : pyIsSpace c = false := by
  unfold pyIsSpace
  have h1 : c ≠ ' ' := fun he => by subst he; revert h; decide
  have h2 : c ≠ '\t' := fun he => by subst he; revert h; decide
  have h3 : c ≠ '\n' := fun he => by subst he; revert h; decide
  have h4 : c ≠ '\r' := fun he => by subst he; revert h; decide
  have h5 : c ≠ Char.ofNat 11 := fun he => by subst he; revert h; decide
  have h6 : c ≠ Char.ofNat 12 := fun he => by subst he; revert h; decide
  simp [h1, h2, h3, h4, h5, h6]

theorem pyIsSpace_toLower (c : Char) : pyIsSpace c.toLower = pyIsSpace c := by
  unfold Char.toLower
  by_cases h : c.toNat ≥ 65 ∧ c.toNat ≤ 90
  · rw [if_pos h]
    rw [pyIsSpace_false_of_ge c (by omega)]
    apply pyIsSpace_false_of_ge
    rw [toNat_ofNat_valid _ (by omega)]
    omega
  · rw [if_neg h]

theorem lowerStr_capitalize (s : List Char) :
    lowerStr (capitalize_first_letter s) = lowerStr s := by
  induction s with
  | nil => rfl
  | cons c cs ih =>
    unfold capitalize_first_letter
    by_cases h : c.isAlpha = true
    · rw [if_pos h]
      unfold lowerStr
      simp only [List.map_cons]
      rw [toLower_toUpper]
    · rw [if_neg h]
      unfold lowerStr at ih ⊢
      simp only [List.map_cons]
      rw [ih]

theorem collapseGo_lower_comm (t : List Char) :
    ∀ b, collapseGo b (lowerStr t) = lowerStr (collapseGo b t) := by
  induction t with
  | nil => intro b; rfl
  | cons c cs ih =>
    intro b
    unfold lowerStr at ih ⊢
    simp only [List.map_cons]
    unfold collapseGo
    rw [pyIsSpace_toLower]
    by_cases h : pyIsSpace c = true
    · rw [h]
      simp only [if_true]
      by_cases hb : b
      · subst hb; simp only [if_true]; exact ih true
      · simp only [hb, Bool.false_eq_true, if_false, List.map_cons]
        rw [ih true]
        rfl
    · rw [Bool.not_eq_true] at h
      rw [h]
      simp only [Bool.false_eq_true, if_false, List.map_cons]
      rw [ih false]

theorem dropWhile_lower_comm (t : List Char) :
    (lowerStr t).dropWhile pyIsSpace = lowerStr (t.dropWhile pyIsSpace) := by
  induction t with
  | nil => rfl
  | cons c cs ih =>
    unfold lowerStr at ih ⊢
    simp only [List.map_cons, List.dropWhile_cons]
    rw [pyIsSpace_toLower]
    by_cases h : pyIsSpace c = true
    · rw [h]
      simpa using ih
    · rw [Bool.not_eq_true] at h
      rw [h]
      simp

theorem trimWs_lower_comm (t : List Char) : trimWs (lowerStr t) = lowerStr (trimWs t) := by
  unfold trimWs
  rw [dropWhile_lower_comm]
  rw [show (lowerStr (t.dropWhile pyIsSpace)).reverse =
        lowerStr (t.dropWhile pyIsSpace).reverse by
    unfold lowerStr; exact (List.map_reverse _ _).symm]
  rw [dropWhile_lower_comm]
  unfold lowerStr
  exact (List.map_reverse _ _).symm

theorem normalize_lower_comm (t : List Char) :
    normalize_text (lowerStr t) = lowerStr (normalize_text t) := by
  unfold normalize_text
  rw [collapseGo_lower_comm, trimWs_lower_comm]

theorem lower_norm_capitalize (s : List Char) :
    lowerStr (normalize_text (capitalize_first_letter s)) =
      lowerStr (normalize_text s) := by
  rw [← normalize_lower_comm, lowerStr_capitalize, normalize_lower_comm]

theorem valid_heading_alpha {t0 : List Char} (h : is_valid_heading t0 = true) :
    (normalize_text t0).any Char.isAlpha = true := by
  by_cases ha : (normalize_text t0).any Char.isAlpha = true
  · exact ha
  · exfalso
    rw [Bool.not_eq_true] at ha
    simp only [is_valid_heading] at h
    rw [ha] at h
    simp at h

theorem selectCandidates_mem {title : List Char} {tableYs : List Q} {med bf : Q}
    {allLines : List LineData} {c : Cand}
    (h : c ∈ selectCandidates title tableYs med bf allLines) :
    c.line ∈ allLines ∧ lineGuards title tableYs c.line = true := by
  obtain ⟨p, hp, hstep⟩ := List.mem_filterMap.mp h
  obtain ⟨hg, hcl, _, _⟩ := candStep_some hstep
  have hm : p.2 ∈ allLines := List.get?_mem (List.mem_enum_iff_get?.mp hp)
  rw [hcl]
  exact ⟨hm, hg⟩

theorem fhth_subset {cands : List Cand} {ytol gap : Q} {c : Cand}
    (h : c ∈ filter_horizontal_table_headers cands ytol gap) : c ∈ cands := by
  unfold filter_horizontal_table_headers at h
  split at h
  · exact h
  · obtain ⟨i, _, hgi⟩ := List.mem_filterMap.mp h
    exact mem_sortBy.mp (List.get?_mem hgi)

theorem candidatesFinal_subset {pages : List (List RawLine)} {ph : Q} {c : Cand}
    (h : c ∈ candidatesFinal pages ph) : c ∈ candidatesScored pages ph := by
  simp only [candidatesFinal] at h
  split at h
  · exact h
  · have h1 := List.mem_of_mem_filter h
    have h2 := fhth_subset h1
    exact List.mem_of_mem_filter h2

theorem assignLevels_mem {cands : List Cand} {labels : List Nat} {pr : Cand × String}
    (h : pr ∈ assignLevels cands labels) : pr.1 ∈ cands := by
  unfold assignLevels at h
  split at h
  · obtain ⟨p, hp, hmk⟩ := List.mem_map.mp h
    have hm : p.2 ∈ cands := List.get?_mem (List.mem_enum_iff_get?.mp hp)
    rw [← hmk]
    exact hm
  · split at h
    · next c0 =>
      rcases List.mem_singleton.mp h with rfl
      exact List.mem_singleton.mpr rfl
    · simp at h

theorem dedupKeepFirst_subset {key : α → List Char} :
    ∀ {l : List α} {seen : List (List Char)} {x : α},
      x ∈ dedupKeepFirst key l seen → x ∈ l := by
  intro l
  induction l with
  | nil => intro seen x h; simp [dedupKeepFirst] at h
  | cons y ys ih =>
    intro seen x h
    unfold dedupKeepFirst at h
    split at h
    · exact List.mem_cons_of_mem y (ih h)
    · rcases List.mem_cons.mp h with rfl | h2
      · exact List.mem_cons_self _ _
      · exact List.mem_cons_of_mem y (ih h2)

theorem attachKeys_mem {cands : List Cand} :
    ∀ {es : List OutlineEntry} {ks : List (OutlineEntry × Q)},
      attachKeys cands es = some ks → ∀ p ∈ ks, p.1 ∈ es := by
  intro es
  induction es with
  | nil =>
    intro ks h p hp
    unfold attachKeys at h
    injection h with h
    rw [← h] at hp
    simp at hp
  | cons e es ih =>
    intro ks h p hp
    unfold attachKeys at h
    cases hf : firstMatchY cands e.text with
    | none => rw [hf] at h; simp at h
    | some y =>
      rw [hf] at h
      cases hr : attachKeys cands es with
      | none => rw [hr] at h; simp at h
      | some ks2 =>
        rw [hr] at h
        injection h with h
        rw [← h] at hp
        rcases List.mem_cons.mp hp with rfl | hp2
        · exact List.mem_cons_self _ _
        · exact List.mem_cons_of_mem e (ih hr p hp2)

theorem sortedOutlineOf_mem {pages : List (List RawLine)} {ph : Q}
    {cl : List Cand → List Nat} {sorted : List OutlineEntry}
    (h : sortedOutlineOf pages ph cl = some sorted) :
    ∀ e ∈ sorted, ∃ pr ∈ levelPairsOf pages ph cl, e = mkEntry pr := by
  simp only [sortedOutlineOf] at h
  cases hak : attachKeys (candidatesFinal pages ph)
      ((levelPairsOf pages ph cl).map mkEntry) with
  | none => rw [hak] at h; simp at h
  | some ks =>
    rw [hak] at h
    simp only [Option.map_some'] at h
    injection h with h
    intro e he
    rw [← h] at he
    obtain ⟨p, hp, hpe⟩ := List.mem_map.mp he
    have hks : p ∈ ks := mem_sortBy.mp hp
    have hent := attachKeys_mem hak p hks
    obtain ⟨pr, hpr, hmk⟩ := List.mem_map.mp hent
    exact ⟨pr, hpr, by rw [← hpe, ← hmk]⟩

/-- Claim C3 (confirmed): no outline entry's case-insensitive
normalized text equals the title's — the line selected as title is
excluded from heading-candidate consideration and outline entries come
only from candidates. -/
theorem extract_cases (pages : List (List RawLine)) (ph : Q)
    (cl : List Cand → List Nat) :
    (extract_pdf_outline pages ph cl).outline = [] ∨
    ∃ sorted, sortedOutlineOf pages ph cl = some sorted ∧
      extract_pdf_outline pages ph cl =
        ⟨titleOf pages ph, dedupKeepFirst entryKey sorted []⟩ := by
  simp only [extract_pdf_outline]
  by_cases h1 : (allLinesOf pages).isEmpty = true
  · rw [if_pos h1]; left; rfl
  · rw [if_neg h1]
    by_cases h2 : (fontSizesOf pages).isEmpty = true
    · rw [if_pos h2]; left; rfl
    · rw [if_neg h2]
      by_cases h3 : (candidatesFinal pages ph).isEmpty = true
      · rw [if_pos h3]; left; rfl
      · rw [if_neg h3]
        cases hso : sortedOutlineOf pages ph cl with
        | none => left; rfl
        | some sorted => right; exact ⟨sorted, rfl, rfl⟩

/-- Claim C3 (confirmed): no outline entry's case-insensitive
normalized text equals the title's — the line selected as title is
excluded from heading-candidate consideration and outline entries come
only from candidates. -/
theorem C3_title_heading_exclusive (pages : List (List RawLine)) (ph : Q)
    (cl : List Cand → List Nat) (e : OutlineEntry)
    (he : e ∈ (extract_pdf_outline pages ph cl).outline) :
    lowerStr (normalize_text e.text) ≠
      lowerStr (normalize_text (extract_pdf_outline pages ph cl).title) := by
  rcases extract_cases pages ph cl with hnil | ⟨sorted, hso, hres⟩
  · rw [hnil] at he; simp at he
  · rw [hres] at he ⊢
    simp only at he ⊢
    have hes : e ∈ sorted := dedupKeepFirst_subset he
    obtain ⟨pr, hpr, hmk⟩ := sortedOutlineOf_mem hso e hes
    have hc1 : pr.1 ∈ candidatesFinal pages ph := by
      unfold levelPairsOf at hpr
      exact assignLevels_mem hpr
    have hc2 := candidatesFinal_subset hc1
    unfold candidatesScored at hc2
    obtain ⟨_, hguards⟩ := selectCandidates_mem hc2
    have hetext : e.text = capitalize_first_letter pr.1.line.text := by
      rw [hmk]; rfl
    rw [hetext, lower_norm_capitalize]
    unfold lineGuards at hguards
    rw [Bool.and_eq_true, Bool.and_eq_true] at hguards
    obtain ⟨⟨htitle, hvalid⟩, _⟩ := hguards
    rw [Bool.or_eq_true] at htitle
    rcases htitle with htempty | htne
    · rw [List.isEmpty_iff] at htempty
      rw [htempty]
      intro hcontra
      have halpha := valid_heading_alpha hvalid
      have hnn : normalize_text pr.1.line.text ≠ [] := by
        intro hnil
        rw [hnil] at halpha
        simp at halpha
      have hzero : lowerStr (normalize_text pr.1.line.text) = [] := by
        rw [hcontra]; rfl
      exact hnn (by
        unfold lowerStr at hzero
        exact List.map_eq_nil_iff.mp hzero)
    · rw [Bool.not_eq_true', decide_eq_false_iff_not] at htne
      exact htne

/-- Claim C3, witness: the concrete two-line document with a title and
one heading. -/
theorem C3_witness :
    lowerStr (normalize_text (sl "1. Introduction")) ≠
      lowerStr (normalize_text
        (extract_pdf_outline exPages (qOfInt 792) exNoCluster).title) := by
  have h := C3_title_heading_exclusive exPages (qOfInt 792) exNoCluster
    ⟨"H1", sl "1. Introduction", 0⟩ (by decide)
  exact h

theorem buildLine_some {pn : Nat} {rl : RawLine} {line : LineData}
    (h : buildLine pn rl = some line) :
    is_noise_content (trimWs (joinSpans rl.spans)) = false ∧
    line.text = normalize_text (trimWs (joinSpans rl.spans)) := by
  simp only [buildLine] at h
  by_cases h1 : rl.spans.isEmpty = true
  · rw [if_pos h1] at h; simp at h
  · rw [if_neg h1] at h
    by_cases h2 : (trimWs (joinSpans rl.spans)).isEmpty = true
    · rw [if_pos h2] at h; simp at h
    · rw [if_neg h2] at h
      by_cases h3 : is_noise_content (trimWs (joinSpans rl.spans)) = true
      · rw [if_pos h3] at h; simp at h
      · rw [if_neg h3] at h
        by_cases h4 : (rl.spans.filterMap Span.size).isEmpty = true
        · rw [if_pos h4] at h; simp at h
        · rw [if_neg h4] at h
          injection h with h
          rw [Bool.not_eq_true] at h3
          exact ⟨h3, by rw [← h]⟩

theorem allLinesOf_mem {pages : List (List RawLine)} {line : LineData}
    (h : line ∈ allLinesOf pages) :
    ∃ st : List Char, is_noise_content st = false ∧ line.text = normalize_text st := by
  unfold allLinesOf at h
  obtain ⟨p, _, hpl⟩ := List.mem_bind.mp h
  obtain ⟨rl, _, hbl⟩ := List.mem_filterMap.mp hpl
  obtain ⟨hn, ht⟩ := buildLine_some hbl
  exact ⟨trimWs (joinSpans rl.spans), hn, ht⟩

theorem noise_of_pageHit {st : List Char}
    (hx : pageHit (lowerStr (normalize_text st)) = true) :
    is_noise_content st = true := by
  simp only [is_noise_content]
  rw [hx]
  simp

theorem noise_of_urlHit {st : List Char}
    (hx : urlHit (lowerStr (normalize_text st)) = true) :
    is_noise_content st = true := by
  simp only [is_noise_content]
  rw [hx]
  simp

/-- Claim C9 (confirmed): "Page 3 of 10" is noise, and — whatever the
font size or bold flag — no line containing a page-number pattern or a
URL marker ever becomes a heading candidate: every candidate's text is
free of both. -/
theorem C9_noise_never_candidate :
    is_noise_content (sl "Page 3 of 10") = true ∧
    ∀ (pages : List (List RawLine)) (title : List Char) (tableYs : List Q)
      (med bf : Q) (c : Cand),
      c ∈ selectCandidates title tableYs med bf (allLinesOf pages) →
      pageHit (lowerStr c.line.text) = false ∧
      urlHit (lowerStr c.line.text) = false := by
  refine ⟨by decide, ?_⟩
  intro pages title tableYs med bf c hc
  obtain ⟨hmem, _⟩ := selectCandidates_mem hc
  obtain ⟨st, hnoise, htext⟩ := allLinesOf_mem hmem
  rw [htext]
  constructor
  · by_cases hx : pageHit (lowerStr (normalize_text st)) = true
    · rw [noise_of_pageHit hx] at hnoise
      exact absurd hnoise (by simp)
    · rw [Bool.not_eq_true] at hx
      exact hx
  · by_cases hx : urlHit (lowerStr (normalize_text st)) = true
    · rw [noise_of_urlHit hx] at hnoise
      exact absurd hnoise (by simp)
    · rw [Bool.not_eq_true] at hx
      exact hx

/-- Claim C9, witness: the claim's theorem applied to the one-candidate
`Overview` page. -/
theorem C9_witness :
    pageHit (lowerStr exOvCand.line.text) = false ∧
    urlHit (lowerStr exOvCand.line.text) = false :=
  C9_noise_never_candidate.2 exOvPages [] [] (qOfInt 10) qZero exOvCand (by decide)

theorem dedup_filter_key {key : α → List Char} :
    ∀ (l : List α) (seen : List (List Char)) (k : List Char),
      (dedupKeepFirst key l seen).filter (fun x => decide (key x = k)) =
        if k ∈ seen then [] else (l.filter (fun x => decide (key x = k))).take 1 := by
  intro l
  induction l with
  | nil =>
    intro seen k
    simp only [dedupKeepFirst, List.filter_nil]
    split <;> rfl
  | cons x xs ih =>
    intro seen k
    unfold dedupKeepFirst
    by_cases hx : key x ∈ seen
    · rw [if_pos hx, ih]
      by_cases hk : k ∈ seen
      · rw [if_pos hk, if_pos hk]
      · rw [if_neg hk, if_neg hk]
        have hne : (decide (key x = k)) = false := by
          simp only [decide_eq_false_iff_not]
          intro he
          rw [he] at hx
          exact hk hx
        rw [List.filter_cons, hne]
        simp only [Bool.false_eq_true, if_false]
    · rw [if_neg hx]
      rw [List.filter_cons]
      by_cases hxk : key x = k
      · subst hxk
        simp only [decide_eq_true_eq, if_pos rfl]
        rw [ih]
        rw [if_pos (List.mem_cons_self _ _)]
        rw [if_neg hx]
        rw [List.filter_cons]
        simp
      · have hne : (decide (key x = k)) = false := by
          simp only [decide_eq_false_iff_not]
          exact hxk
        rw [hne]
        simp only [Bool.false_eq_true, if_false]
        rw [ih]
        by_cases hk : k ∈ seen
        · rw [if_pos (List.mem_cons_of_mem _ hk), if_pos hk]
        · rw [if_neg ?hns, if_neg hk]
          · rw [List.filter_cons, hne]
            simp only [Bool.false_eq_true, if_false]
          case hns =>
            intro hcon
            rcases List.mem_cons.mp hcon with he | he
            · exact hxk he.symm
            · exact hk he

theorem dedup_key_not_seen {key : α → List Char} :
    ∀ {l : List α} {seen : List (List Char)} {x : α},
      x ∈ dedupKeepFirst key l seen → key x ∉ seen := by
  intro l
  induction l with
  | nil => intro seen x h; simp [dedupKeepFirst] at h
  | cons y ys ih =>
    intro seen x h
    unfold dedupKeepFirst at h
    split at h
    · exact ih h
    · rcases List.mem_cons.mp h with rfl | h2
      · assumption
      · intro hc
        exact ih h2 (List.mem_cons_of_mem _ hc)

theorem dedup_pairwise {key : α → List Char} :
    ∀ (l : List α) (seen : List (List Char)),
      (dedupKeepFirst key l seen).Pairwise (fun a b => key a ≠ key b) := by
  intro l
  induction l with
  | nil => intro seen; simp [dedupKeepFirst]
  | cons x xs ih =>
    intro seen
    unfold dedupKeepFirst
    split
    · exact ih seen
    · refine List.pairwise_cons.mpr ⟨?_, ih (key x :: seen)⟩
      intro b hb he
      exact dedup_key_not_seen hb (he ▸ List.mem_cons_self _ _)

/-- Claim C8 (confirmed): the returned outline is the sorted outline
deduplicated by case-insensitive text — all pairs of entries have
different keys, and for every key the entry kept is exactly the FIRST
occurrence in the (page, Y)-sorted order. -/
theorem C8_outline_dedup (pages : List (List RawLine)) (ph : Q)
    (cl : List Cand → List Nat) (sorted : List OutlineEntry)
    (hne : (allLinesOf pages).isEmpty = false)
    (hfs : (fontSizesOf pages).isEmpty = false)
    (hcf : (candidatesFinal pages ph).isEmpty = false)
    (hso : sortedOutlineOf pages ph cl = some sorted) :
    (extract_pdf_outline pages ph cl).outline = dedupKeepFirst entryKey sorted [] ∧
    ((extract_pdf_outline pages ph cl).outline).Pairwise
      (fun a b => entryKey a ≠ entryKey b) ∧
    ∀ k, ((extract_pdf_outline pages ph cl).outline).filter
        (fun e => decide (entryKey e = k)) =
      (sorted.filter (fun e => decide (entryKey e = k))).take 1 := by
  have hres : extract_pdf_outline pages ph cl =
      ⟨titleOf pages ph, dedupKeepFirst entryKey sorted []⟩ := by
    simp only [extract_pdf_outline]
    rw [if_neg (by simp [hne]), if_neg (by simp [hfs]), if_neg (by simp [hcf]), hso]
  refine ⟨by rw [hres], by rw [hres]; exact dedup_pairwise sorted [], ?_⟩
  intro k
  rw [hres]
  simp only
  rw [dedup_filter_key sorted [] k, if_neg (by simp)]

/-- Claim C8, witness: the concrete two-line document. -/
theorem C8_witness :
    (extract_pdf_outline exPages (qOfInt 792) exNoCluster).outline =
      dedupKeepFirst entryKey [⟨"H1", sl "1. Introduction", 0⟩] [] ∧
    ((extract_pdf_outline exPages (qOfInt 792) exNoCluster).outline).Pairwise
      (fun a b => entryKey a ≠ entryKey b) ∧
    ∀ k, ((extract_pdf_outline exPages (qOfInt 792) exNoCluster).outline).filter
        (fun e => decide (entryKey e = k)) =
      (([⟨"H1", sl "1. Introduction", 0⟩] :
          List OutlineEntry).filter (fun e => decide (entryKey e = k))).take 1 :=
  C8_outline_dedup exPages (qOfInt 792) exNoCluster [⟨"H1", sl "1. Introduction", 0⟩]
    (by decide) (by decide) (by decide) (by decide)
